import Mathlib

/-!
Shallow embedding of the chunking engine, vector retrieval index, semantic
response cache and re-ranking fallback of the RAG library manager
(src/src/chunkers/*.py, src/src/core/vector_store.py, src/src/core/cache.py,
src/src/core/rag.py), together with proofs settling the frozen claims.

Strings are modelled as `List Char`; Python floats are modelled exactly
(rationals where the source computes with rationals of floats, and an exact
pair representation `(p, u)` standing for `p / sqrt u` where the source
divides by a Euclidean norm).
-/

namespace RagLib

/-- Python's whitespace class `\s` (also the character set stripped by
`str.strip()` with no argument). -/
def isWs (c : Char) : Bool :=
  c = ' ' || c = '\t' || c = '\n' || c = '\r' || c = '\x0b' || c = '\x0c'

/-- Erase every whitespace character.  "Modulo whitespace normalization" is
formalised as equality of `nw` images: two texts are identified when they
agree after deleting all whitespace. -/
def nw (l : List Char) : List Char := l.filter (fun c => !isWs c)

/-- Python `str.strip()`: drop whitespace from both ends. -/
def stripWs (l : List Char) : List Char :=
  ((l.dropWhile isWs).reverse.dropWhile isWs).reverse

/-- Python `sep.join(pieces)`. -/
def joinSep (sep : List Char) : List (List Char) → List Char
  | [] => []
  | [x] => x
  | x :: y :: rest => x ++ sep ++ joinSep sep (y :: rest)

/-- Python `text.split(sep)` for a non-empty literal separator: scan left to
right, cut at each (non-overlapping) occurrence, keep empty pieces.  For
`sep = []` the source never calls `str.split` (it special-cases the empty
separator), so that case just returns `[text]`. -/
def splitOnSep (sep : List Char) (text : List Char) : List (List Char) :=
  if hs : sep = [] then [text]
  else
    match text with
    | [] => [[]]
    | c :: rest =>
      if sep.isPrefixOf (c :: rest) then
        [] :: splitOnSep sep ((c :: rest).drop sep.length)
      else
        match splitOnSep sep rest with
        | [] => [[c]]
        | p :: ps => (c :: p) :: ps
termination_by text.length
decreasing_by
  · simp only [List.length_drop, List.length_cons]
    have : 1 ≤ sep.length := List.length_pos.mpr hs
    omega
  · simp

/-- Python `sep in text` for a non-empty separator: at least one occurrence,
i.e. the split has at least two pieces. -/
def containsSub (sep text : List Char) : Bool :=
  decide (1 < (splitOnSep sep text).length)

theorem length_dropWhile_le (p : α → Bool) (l : List α) :
    (l.dropWhile p).length ≤ l.length := by
  induction l with
  | nil => simp
  | cons a l ih => by_cases h : p a <;> simp [List.dropWhile_cons, h] <;> omega

/-- The sentence splitter `re.split(r'(?<=[.!?])\s+', text)` shared by the
sentence and semantic chunkers: the delimiters are exactly the maximal
whitespace runs directly preceded by `.`, `!` or `?`. -/
def isSentEnd (c : Char) : Bool := c = '.' || c = '!' || c = '?'

def headIsWs : List Char → Bool
  | [] => false
  | d :: _ => isWs d

def sentSplitAux (acc : List Char) (l : List Char) : List (List Char) :=
  match l with
  | [] => [acc.reverse]
  | c :: rest =>
    if isSentEnd c && headIsWs rest then
      (c :: acc).reverse :: sentSplitAux [] (rest.dropWhile isWs)
    else
      sentSplitAux (c :: acc) rest
termination_by l.length
decreasing_by
  · have := length_dropWhile_le isWs rest
    simp only [List.length_cons]
    omega
  · simp

def sentSplit (text : List Char) : List (List Char) := sentSplitAux [] text

/-- The sentence lists built by sentence.py line 21-22 and semantic.py
line 33-34: split, strip each piece, drop empties. -/
def sentencesOf (text : List Char) : List (List Char) :=
  ((sentSplit text).map stripWs).filter (fun s => s ≠ [])

/-- `f"chunk_{order:03d}"`: zero-padded three digit id suffix. -/
def pad3 (n : ℕ) : List Char :=
  let d := Nat.toDigits 10 n
  List.replicate (3 - d.length) '0' ++ d

def chunkId (n : ℕ) : List Char := "chunk_".data ++ pad3 n

/-- One chunk record `{id, order, content}` as produced by every strategy. -/
structure Chunk where
  id : List Char
  order : ℕ
  content : List Char
deriving DecidableEq, Repr

/-- The strategy result `{chunks, stats: {num_chunks}}`. -/
structure ChunkResult where
  chunks : List Chunk
  numChunks : ℕ
deriving DecidableEq, Repr

/-- Number a list of contents from `k` upward.  Every strategy assigns
`order` as (current number of emitted chunks) + 1 resp. enumerate-index + 1,
which is exactly the final 1-based position, so the source's incremental
numbering is `mkChunksFrom 1`. -/
def mkChunksFrom (k : ℕ) : List (List Char) → List Chunk
  | [] => []
  | c :: cs => ⟨chunkId k, k, c⟩ :: mkChunksFrom (k + 1) cs

def mkChunks (contents : List (List Char)) : List Chunk := mkChunksFrom 1 contents

/-- Python `range(0, len(l), n)` slicing `l[i : i+n]`: consecutive groups of
`n` elements.  The source raises `ValueError` for step `n = 0`; that case is
mapped to `[]` and excluded by hypothesis in every theorem touching it. -/
def groupsOf : ℕ → List α → List (List α)
  | _, [] => []
  | 0, _ :: _ => []
  | n + 1, a :: l => ((a :: l).take (n + 1)) :: groupsOf (n + 1) ((a :: l).drop (n + 1))
termination_by _ l => l.length
decreasing_by
  simp only [List.length_drop, List.length_cons]
  omega

/-- SentenceChunker.chunk (sentence.py lines 16-40): group a fixed count of
consecutive sentences, join each group with a single space. -/
def sentenceChunk (sentencesPerChunk : ℕ) (text : List Char) : ChunkResult :=
  let sentences := sentencesOf text
  let contents := (groupsOf sentencesPerChunk sentences).map (joinSep " ".data)
  { chunks := mkChunks contents, numChunks := (mkChunks contents).length }

/-- The greedy accumulation loop of ParagraphChunker.chunk (paragraph.py
lines 26-50): append paragraphs until the accumulated length reaches
`minLength`, flush, and flush the (possibly short) remainder at the end. -/
def paraGroups (minLength : ℕ) : List (List Char) → List (List Char) → ℕ →
    List (List (List Char))
  | [], cur, _ => if cur = [] then [] else [cur]
  | p :: ps, cur, curLen =>
    let cur' := cur ++ [p]
    let len' := curLen + p.length
    if minLength ≤ len' then cur' :: paraGroups minLength ps [] 0
    else paraGroups minLength ps cur' len'

/-- ParagraphChunker.chunk (paragraph.py lines 15-57). -/
def paragraphChunk (minLength : ℕ) (text : List Char) : ChunkResult :=
  let paragraphs := ((splitOnSep "\n\n".data text).map stripWs).filter (fun p => p ≠ [])
  let contents := (paraGroups minLength paragraphs [] 0).map (joinSep "\n\n".data)
  { chunks := mkChunks contents, numChunks := (mkChunks contents).length }

/-! ## Hierarchy chunker (hierarchy.py) -/

/-- Match of `re.compile(r'^(#{1,6})\s+(.+)$')` on a single line: 1–6 leading
`#` followed by at least one whitespace character and at least one further
character (after greedy `\s+` with backtracking, `group(2).strip()` equals
the stripped remainder after the whole whitespace run).  Returns the heading
level and the stripped heading text. -/
def headerMatch (line : List Char) : Option (ℕ × List Char) :=
  let k := (line.takeWhile (fun c => c = '#')).length
  let rest := line.drop k
  if 1 ≤ k ∧ k ≤ 6 ∧ headIsWs rest ∧ 2 ≤ rest.length then
    some (k, stripWs (rest.dropWhile isWs))
  else
    none

/-- `" > ".join(h[1] for h in header_stack)`.  The stack is modelled with its
top at the head, so the bottom-to-top join of the source reverses it. -/
def pathStr (stack : List (ℕ × List Char)) : List Char :=
  joinSep " > ".data ((stack.map Prod.snd).reverse)

/-- `f"Context: {path_str}\n\n{content}"` when `include_path` and the path is
non-empty, else the bare content. -/
def withCtx (includePath : Bool) (path content : List Char) : List Char :=
  if includePath ∧ path ≠ [] then "Context: ".data ++ path ++ "\n\n".data ++ content
  else content

/-- The paragraph-boundary sub-splitting loop inside `flush_chunk`
(hierarchy.py lines 48-69), run when a section exceeds `max_chunk_size`. -/
def subSplitGo (maxSize : ℕ) : List (List Char) → List (List Char) → ℕ →
    List (List (List Char))
  | [], cur, _ => if cur = [] then [] else [cur]
  | p :: ps, cur, curLen =>
    if maxSize < curLen + p.length ∧ cur ≠ [] then
      cur :: subSplitGo maxSize ps [p] p.length
    else
      subSplitGo maxSize ps (cur ++ [p]) (curLen + p.length)

/-- `flush_chunk` (hierarchy.py lines 33-74): join the accumulated lines,
strip; if empty produce nothing; if over `max_chunk_size` sub-split at blank
lines; prefix the heading path when configured. -/
def flushChunk (maxSize : ℕ) (includePath : Bool) (stack : List (ℕ × List Char))
    (contentLines : List (List Char)) : List (List Char) :=
  let contentText := stripWs (joinSep "\n".data contentLines)
  if contentText = [] then []
  else
    let path := pathStr stack
    if maxSize < contentText.length then
      let parts := ((splitOnSep "\n\n".data contentText).map stripWs).filter (fun p => p ≠ [])
      (subSplitGo maxSize parts [] 0).map
        (fun g => withCtx includePath path (joinSep "\n\n".data g))
    else
      [withCtx includePath path contentText]

/-- The main line loop of HierarchyChunker.chunk (hierarchy.py lines 87-111):
on a heading, flush accumulated content, pop stack entries of level ≥ the new
level, push; otherwise accumulate the line.  A final flush ends the walk. -/
def hierWalk (maxSize : ℕ) (includePath : Bool) :
    List (List Char) → List (ℕ × List Char) → List (List Char) → List (List Char)
  | [], stack, content => flushChunk maxSize includePath stack content
  | line :: rest, stack, content =>
    match headerMatch line with
    | some (level, htext) =>
      flushChunk maxSize includePath stack content ++
        hierWalk maxSize includePath rest
          ((level, htext) :: stack.dropWhile (fun e => level ≤ e.1)) []
    | none => hierWalk maxSize includePath rest stack (content ++ [line])

/-- HierarchyChunker.chunk (hierarchy.py lines 15-118). -/
def hierarchyChunk (maxSize : ℕ) (includePath : Bool) (text : List Char) : ChunkResult :=
  let contents := hierWalk maxSize includePath (splitOnSep "\n".data text) [] []
  { chunks := mkChunks contents, numChunks := (mkChunks contents).length }

/-! ## Recursive chunker (recursive.py) -/

/-- Separator selection of `_split_text` (recursive.py lines 52-65): the
first separator that is empty or occurs in the text wins, together with the
remaining lower-priority separators; if none matches, the last separator is
chosen with no remaining ones (`separator = separators[-1]`). -/
def chooseSep (text : List Char) : List (List Char) → List Char × List (List Char)
  | [] => ([], [])
  | s :: rest =>
    if s = [] then ([], [])
    else if containsSub s text then (s, rest)
    else if rest = [] then (s, [])
    else chooseSep text rest

theorem chooseSep_snd_length (text : List Char) :
    ∀ seps : List (List Char), seps ≠ [] →
      (chooseSep text seps).2.length < seps.length := by
  intro seps
  induction seps with
  | nil => intro h; exact absurd rfl h
  | cons s rest ih =>
    intro _
    by_cases hs : s = []
    · simp [chooseSep, hs]
    · by_cases hc : containsSub s text
      · simp [chooseSep, hs, hc]
      · by_cases hr : rest = []
        · simp [chooseSep, hs, hc, hr]
        · have := ih hr
          simp only [chooseSep, if_neg hs, if_neg hc, if_neg hr, List.length_cons]
          omega

/-- `_split_text` (recursive.py lines 46-94): split by the chosen separator
(character-by-character when it is empty), keep pieces shorter than
`chunk_size`, and recurse with the remaining separators on oversized pieces
(taking them as-is when no separators remain).  The source is never called
with an empty separator list (`separators[-1]` would raise); that case is
mapped to `[text]`. -/
def splitTextRec (chunkSize : ℕ) (seps : List (List Char)) (text : List Char) :
    List (List Char) :=
  if hs : seps = [] then [text]
  else
    let p := chooseSep text seps
    let pieces := if p.1 = [] then text.map (fun c => [c]) else splitOnSep p.1 text
    pieces.flatMap (fun s =>
      if s.length < chunkSize then [s]
      else if hn : p.2 = [] then [s]
      else splitTextRec chunkSize p.2 s)
termination_by seps.length
decreasing_by
  exact chooseSep_snd_length text seps hs

/-- The backward overlap walk of `_merge_splits` (recursive.py lines 130-138),
applied to the reversed current chunk: collect trailing pieces while the
accumulated length stays strictly below `chunk_overlap`. -/
def overlapWalkAux (overlap : ℕ) :
    List (List Char) → List (List Char) → ℕ → List (List Char) × ℕ
  | [], acc, olen => (acc, olen)
  | s :: rest, acc, olen =>
    if olen + s.length < overlap then overlapWalkAux overlap rest (s :: acc) (olen + s.length)
    else (acc, olen)

def overlapTail (overlap : ℕ) (cur : List (List Char)) : List (List Char) × ℕ :=
  overlapWalkAux overlap cur.reverse [] 0

/-- The merge loop of `_merge_splits` (recursive.py lines 100-148): greedily
append pieces; when a piece would overflow `chunk_size`, close the current
chunk (if non-empty) and seed the next one with the overlap tail; flush the
final chunk. -/
def mergeGo (chunkSize overlap : ℕ) (sep : List Char) :
    List (List Char) → List (List Char) → ℕ → List (List Char) → List (List Char)
  | [], cur, _, acc => acc ++ (if cur = [] then [] else [joinSep sep cur])
  | s :: rest, cur, curLen, acc =>
    if chunkSize < curLen + s.length + sep.length then
      if cur = [] then
        mergeGo chunkSize overlap sep rest (cur ++ [s]) (curLen + s.length + sep.length) acc
      else
        let t := overlapTail overlap cur
        mergeGo chunkSize overlap sep rest (t.1 ++ [s]) (t.2 + s.length + sep.length)
          (acc ++ [joinSep sep cur])
    else
      mergeGo chunkSize overlap sep rest (cur ++ [s]) (curLen + s.length + sep.length) acc

def mergeSplits (chunkSize overlap : ℕ) (sep : List Char)
    (splits : List (List Char)) : List (List Char) :=
  mergeGo chunkSize overlap sep splits [] 0 []

/-- The default separator priority list `["\n\n", "\n", " ", ""]`. -/
def defaultSeps : List (List Char) := ["\n\n".data, "\n".data, " ".data, []]

/-- RecursiveChunker.chunk (recursive.py lines 15-44); the merge join
separator is the empty string (`separator=""` at the call site, line 27). -/
def recursiveChunk (chunkSize overlap : ℕ) (seps : List (List Char))
    (text : List Char) : ChunkResult :=
  let splits := splitTextRec chunkSize seps text
  let contents := mergeSplits chunkSize overlap [] splits
  { chunks := mkChunks contents, numChunks := (mkChunks contents).length }

/-! ## Semantic chunker (semantic.py)

The external embedding capability is a parameter: a function from a batch of
sentence texts to either an error message (a raised exception caught by the
`try`, semantic.py line 67) or a list of embedding vectors.  The numeric
pipeline (numpy normalization, adjacent cosine distances, percentile
threshold) is modelled over exact reals; no claim depends on a concrete
numeric value of it. -/

noncomputable def dotR (a b : List ℝ) : ℝ := (a.zipWith (· * ·) b).sum

/-- `embeddings / np.linalg.norm(embeddings, axis=1, keepdims=True)` for one
row. -/
noncomputable def l2normalize (a : List ℝ) : List ℝ :=
  a.map (fun x => x / Real.sqrt (dotR a a))

/-- Cosine distances `1 - sim` between consecutive rows (semantic.py
lines 86-92). -/
noncomputable def adjDists : List (List ℝ) → List ℝ
  | a :: b :: rest => (1 - dotR a b) :: adjDists (b :: rest)
  | _ => []

open Classical in
/-- `np.percentile(distances, q)` with the default linear interpolation:
virtual index `h = (n-1)q/100` into the ascending sort, interpolating between
the neighbouring order statistics (indices clipped to the valid range). -/
noncomputable def percentileR (l : List ℝ) (q : ℝ) : ℝ :=
  let s := l.mergeSort (fun a b => decide (a ≤ b))
  let n := s.length
  if n = 0 then 0
  else
    let h : ℝ := ((n : ℝ) - 1) * q / 100
    let i : ℕ := min (max ⌊h⌋ 0).toNat (n - 1)
    let j : ℕ := min (i + 1) (n - 1)
    s.getD i 0 + (h - (i : ℝ)) * (s.getD j 0 - s.getD i 0)

/-- The batched embedding loop (semantic.py lines 55-65): sentences are sent
in batches of 100; results are concatenated in order; the first failing call
aborts the whole step. -/
def batchEmbed (oracle : List (List Char) → Except (List Char) (List (List ℝ)))
    (texts : List (List Char)) : Except (List Char) (List (List ℝ)) :=
  (groupsOf 100 texts).foldlM (fun acc batch => (oracle batch).map (fun es => acc ++ es)) []

open Classical in
/-- The grouping loop (semantic.py lines 102-115): start a new chunk whenever
the distance at a gap exceeds the threshold; each gap distance is paired with
the sentence to its right. -/
noncomputable def groupWalk (thr : ℝ) :
    List (List Char) → List (ℝ × List Char) → List (List (List Char))
  | cur, [] => if cur = [] then [] else [cur]
  | cur, (d, s) :: rest =>
    if thr < d then cur :: groupWalk thr [s] rest
    else groupWalk thr (cur ++ [s]) rest

open Classical in
/-- The body of SemanticChunker.chunk over the computed sentence list
(semantic.py lines 36-132): zero sentences yield an empty result, one
sentence short-circuits before any embedding call, an embedding failure
yields the diagnostic chunk `{id: "error", order: 0}` with `num_chunks: 0`.
-/
noncomputable def semanticCore
    (oracle : List (List Char) → Except (List Char) (List (List ℝ)))
    (thresholdPercentile : ℝ) : List (List Char) → ChunkResult
  | [] => { chunks := [], numChunks := 0 }
  | [s] => { chunks := [⟨chunkId 1, 1, s⟩], numChunks := 1 }
  | s0 :: s1 :: srest =>
    match batchEmbed oracle (s0 :: s1 :: srest) with
    | .error e =>
      { chunks := [⟨"error".data, 0, "Embedding Error: ".data ++ e⟩], numChunks := 0 }
    | .ok embs =>
      let dists := adjDists (embs.map l2normalize)
      let thr := if dists = [] then 0 else percentileR dists thresholdPercentile
      let contents := (groupWalk thr [s0] (dists.zip (s1 :: srest))).map (joinSep " ".data)
      { chunks := mkChunks contents, numChunks := (mkChunks contents).length }

/-- SemanticChunker.chunk (semantic.py lines 22-132). -/
noncomputable def semanticChunk
    (oracle : List (List Char) → Except (List Char) (List (List ℝ)))
    (thresholdPercentile : ℝ) (text : List Char) : ChunkResult :=
  semanticCore oracle thresholdPercentile (sentencesOf text)

/-! ## Exact representation of cosine similarities

cache.py computes `similarity = dot / (norm_a * norm_b)` with floats.  The
value is `p / sqrt u` with `p` the dot product and `u` the product of the
squared norms, both exact rationals for rational vectors; we represent it by
the pair `(p, u)` with `u > 0` and compare pairs exactly. -/

abbrev SimRep := ℚ × ℚ

/-- Exact strict comparison `a.1 / sqrt a.2 < b.1 / sqrt b.2` (for positive
second components), by sign analysis and squaring. -/
def simLt (a b : SimRep) : Bool :=
  if a.1 < 0 then
    if 0 ≤ b.1 then true else decide (b.1 * b.1 * a.2 < a.1 * a.1 * b.2)
  else
    if b.1 ≤ 0 then false else decide (a.1 * a.1 * b.2 < b.1 * b.1 * a.2)

/-- The real value represented by a pair. -/
noncomputable def simVal (a : SimRep) : ℝ := (a.1 : ℝ) / Real.sqrt (a.2 : ℝ)

/-- A plain rational (a threshold, or the constants `-1.0` and `1.0` of the
source) as a pair. -/
def qRep (t : ℚ) : SimRep := (t, 1)

theorem simVal_qRep (t : ℚ) : simVal (qRep t) = (t : ℝ) := by
  simp [simVal, qRep]

theorem simLt_iff (a b : SimRep) (ha : 0 < a.2) (hb : 0 < b.2) :
    simLt a b = true ↔ simVal a < simVal b := by
  have ha' : (0 : ℝ) < Real.sqrt a.2 := Real.sqrt_pos.mpr (by exact_mod_cast ha)
  have hb' : (0 : ℝ) < Real.sqrt b.2 := Real.sqrt_pos.mpr (by exact_mod_cast hb)
  have hval : simVal a < simVal b ↔ (a.1 : ℝ) * Real.sqrt b.2 < (b.1 : ℝ) * Real.sqrt a.2 := by
    rw [simVal, simVal, div_lt_div_iff₀ ha' hb']
  have sqa : Real.sqrt a.2 * Real.sqrt a.2 = (a.2 : ℝ) :=
    Real.mul_self_sqrt (by exact_mod_cast ha.le)
  have sqb : Real.sqrt b.2 * Real.sqrt b.2 = (b.2 : ℝ) :=
    Real.mul_self_sqrt (by exact_mod_cast hb.le)
  by_cases hA : a.1 < 0
  · by_cases hB : 0 ≤ b.1
    · simp only [simLt, if_pos hA, if_pos hB, true_iff]
      rw [hval]
      calc (a.1 : ℝ) * Real.sqrt b.2 < 0 := by
            apply mul_neg_of_neg_of_pos (by exact_mod_cast hA) hb'
        _ ≤ (b.1 : ℝ) * Real.sqrt a.2 := by
            apply mul_nonneg (by exact_mod_cast hB) ha'.le
    · push_neg at hB
      simp only [simLt, if_pos hA, if_neg (not_le.mpr hB), decide_eq_true_eq]
      rw [hval]
      have hx : (0 : ℝ) ≤ -(b.1 : ℝ) * Real.sqrt a.2 := by
        apply mul_nonneg _ ha'.le
        simp only [Left.nonneg_neg_iff]
        exact_mod_cast hB.le
      have hy : (0 : ℝ) ≤ -(a.1 : ℝ) * Real.sqrt b.2 := by
        apply mul_nonneg _ hb'.le
        simp only [Left.nonneg_neg_iff]
        exact_mod_cast hA.le
    -- a < b ↔ -b < -a, squared
      have key := mul_self_lt_mul_self_iff hx hy
      have hq : ((b.1 : ℝ) * b.1 * a.2 < (a.1 : ℝ) * a.1 * b.2) ↔
          (b.1 * b.1 * a.2 < a.1 * a.1 * b.2) := by exact_mod_cast Iff.rfl
      constructor
      · intro h
        have h' := hq.mpr h
        have := key.mpr (by nlinarith [sqa, sqb])
        nlinarith [this]
      · intro h
        have := key.mp (by nlinarith [h])
        exact hq.mp (by nlinarith [this, sqa, sqb])
  · push_neg at hA
    by_cases hB : b.1 ≤ 0
    · simp only [simLt, if_neg (not_lt.mpr hA), if_pos hB, Bool.false_eq_true, false_iff, not_lt]
      have h1 : simVal b ≤ 0 := div_nonpos_iff.mpr (Or.inr ⟨by exact_mod_cast hB, Real.sqrt_nonneg _⟩)
      have h2 : 0 ≤ simVal a := div_nonneg (by exact_mod_cast hA) (Real.sqrt_nonneg _)
      exact h1.trans h2
    · push_neg at hB
      simp only [simLt, if_neg (not_lt.mpr hA), if_neg (not_le.mpr hB), decide_eq_true_eq]
      rw [hval]
      have hx : (0 : ℝ) ≤ (a.1 : ℝ) * Real.sqrt b.2 := by
        apply mul_nonneg _ hb'.le
        exact_mod_cast hA
      have hy : (0 : ℝ) ≤ (b.1 : ℝ) * Real.sqrt a.2 := by
        apply mul_nonneg _ ha'.le
        exact_mod_cast hB.le
      have key := mul_self_lt_mul_self_iff hx hy
      have hq : ((a.1 : ℝ) * a.1 * b.2 < (b.1 : ℝ) * b.1 * a.2) ↔
          (a.1 * a.1 * b.2 < b.1 * b.1 * a.2) := by exact_mod_cast Iff.rfl
      constructor
      · intro h
        have h' := hq.mpr h
        exact key.mpr (by nlinarith [sqa, sqb])
      · intro h
        have := key.mp h
        exact hq.mp (by nlinarith [this, sqa, sqb])

/-! ## Semantic response cache (cache.py)

The SQLite table `rag_cache` is modelled as an in-order list of rows; the
`AUTOINCREMENT` id doubles as the `created_at` timestamp (the source orders
by `created_at DESC`; with the second-granularity `CURRENT_TIMESTAMP`
replaced by a strictly monotone counter the order is total, which the source
implicitly assumes).  Columns not read by any claim (category, collection,
prompt and rerank/rewrite provenance) are omitted; `sources` is kept as the
opaque serialized blob the source stores and returns. -/

def dotQ (a b : List ℚ) : ℚ := (a.zipWith (· * ·) b).sum

structure CacheEntry where
  id : ℕ
  query : List Char
  answer : List Char
  sources : List Char
  stateHash : List Char
  thumbsUp : ℕ
  thumbsDown : ℕ
  hitCount : ℕ
  queryEmbedding : Option (List ℚ)
  createdAt : ℕ
deriving DecidableEq, Repr

structure CacheState where
  entries : List CacheEntry
  nextId : ℕ
deriving DecidableEq, Repr

def emptyCache : CacheState := { entries := [], nextId := 1 }

inductive FilterMode where
  | onlyPositive
  | posGtNeg
  | unfiltered
deriving DecidableEq, Repr

/-- The SQL quality filter (cache.py lines 97-102). -/
def condOf : FilterMode → CacheEntry → Bool
  | .onlyPositive, e => decide (0 < e.thumbsUp ∧ e.thumbsDown = 0)
  | .posGtNeg, e => decide (e.thumbsDown < e.thumbsUp)
  | .unfiltered, _ => true

/-- `ORDER BY created_at DESC LIMIT 1` over a filtered row set: the row with
the greatest timestamp (timestamps are distinct by construction). -/
def latestOf (l : List CacheEntry) : Option CacheEntry :=
  l.foldl (fun acc e =>
    match acc with
    | none => some e
    | some b => if b.createdAt < e.createdAt then some e else some b) none

/-- `UPDATE rag_cache SET hit_count = hit_count + 1 WHERE id = ?`. -/
def bumpHit (st : CacheState) (i : ℕ) : CacheState :=
  { st with entries := st.entries.map (fun e =>
      if e.id = i then { e with hitCount := e.hitCount + 1 } else e) }

/-- What `check_cache` returns on a hit: the stored query, answer and sources
plus the achieved similarity (cache.py lines 114-119 and 153-158). -/
structure CacheHit where
  query : List Char
  answer : List Char
  sources : List Char
  similarity : SimRep
deriving DecidableEq, Repr

/-- One candidate similarity (cache.py lines 139-142):
`dot / (norm_a * norm_b)` if the norm product is positive else `0`, as an
exact pair (the positivity of `norm_a * norm_b` is exactly the positivity of
the product of the squared norms). -/
def simOf (qe emb : List ℚ) : SimRep :=
  let u := dotQ qe qe * dotQ emb emb
  if 0 < u then (dotQ qe emb, u) else qRep 0

/-- The semantic scan (cache.py lines 137-148): track the best match and the
maximal similarity, accepting a candidate when its similarity is at least the
threshold and strictly exceeds the current maximum (`max_sim` starts at
`-1.0`).  A candidate whose stored embedding length differs from the query
embedding's makes `np.dot` raise; the bare `except` then skips it. -/
def approxGo (qe : List ℚ) (t : ℚ) :
    List CacheEntry → Option CacheEntry → SimRep → Option CacheEntry × SimRep
  | [], best, ms => (best, ms)
  | e :: rest, best, ms =>
    match e.queryEmbedding with
    | none => approxGo qe t rest best ms
    | some emb =>
      if emb.length = qe.length then
        let s := simOf qe emb
        if !simLt s (qRep t) && simLt ms s then approxGo qe t rest (some e) s
        else approxGo qe t rest best ms
      else approxGo qe t rest best ms

/-- The exact-stage row set: `WHERE query = ? AND state_hash = ? AND
<quality filter>` (cache.py lines 104-108). -/
def exactFilter (st : CacheState) (q hash : List Char) (mode : FilterMode) :
    List CacheEntry :=
  st.entries.filter (fun e =>
    decide (e.query = stripWs q) && decide (e.stateHash = hash) && condOf mode e)

/-- The approximate-stage candidate set: `WHERE state_hash = ? AND
<quality filter> AND query_embedding IS NOT NULL` (cache.py lines 125-128). -/
def approxCands (st : CacheState) (hash : List Char) (mode : FilterMode) :
    List CacheEntry :=
  st.entries.filter (fun e =>
    decide (e.stateHash = hash) && condOf mode e && e.queryEmbedding.isSome)

/-- RAGCache.check_cache (cache.py lines 90-163): exact stage on
`(stripped query, state_hash, quality filter)` picking the most recent row,
returning similarity `1.0` and bumping `hit_count`; otherwise, only when a
(truthy) query embedding was supplied and `threshold < 1.0`, the semantic
scan over rows with the same state hash, passing the filter and carrying an
embedding. -/
def checkCache (st : CacheState) (q hash : List Char) (mode : FilterMode)
    (qe : Option (List ℚ)) (t : ℚ) : Option CacheHit × CacheState :=
  match latestOf (exactFilter st q hash mode) with
  | some e => (some ⟨e.query, e.answer, e.sources, qRep 1⟩, bumpHit st e.id)
  | none =>
    match qe with
    | some v =>
      if v ≠ [] ∧ t < 1 then
        match approxGo v t (approxCands st hash mode) none (qRep (-1)) with
        | (some e, ms) => (some ⟨e.query, e.answer, e.sources, ms⟩, bumpHit st e.id)
        | (none, _) => (none, st)
      else (none, st)
    | none => (none, st)

/-- RAGCache.save_to_cache (cache.py lines 165-195): always insert a new row;
the query is stripped, fresh feedback and hit counters are zero, and a falsy
(absent or empty) embedding is stored as NULL. -/
def saveToCache (st : CacheState) (q answer sources hash : List Char)
    (qe : Option (List ℚ)) : CacheState :=
  { entries := st.entries ++ [{
      id := st.nextId
      query := stripWs q
      answer := answer
      sources := sources
      stateHash := hash
      thumbsUp := 0
      thumbsDown := 0
      hitCount := 0
      queryEmbedding := match qe with
        | some v => if v = [] then none else some v
        | none => none
      createdAt := st.nextId }]
    nextId := st.nextId + 1 }

/-- RAGCache.update_feedback (cache.py lines 197-216): increment `thumbs_up`
when the feedback string is `"up"`, else `thumbs_down`, on the most recent
row matching the stripped query and state hash; a no-op when none matches. -/
def updateFeedback (st : CacheState) (q hash feedback : List Char) : CacheState :=
  match latestOf (st.entries.filter (fun e =>
      decide (e.query = stripWs q) && decide (e.stateHash = hash))) with
  | none => st
  | some e =>
    { st with entries := st.entries.map (fun x =>
        if x.id = e.id then
          if feedback = "up".data then { x with thumbsUp := x.thumbsUp + 1 }
          else { x with thumbsDown := x.thumbsDown + 1 }
        else x) }

/-! ## Vector index search (vector_store.py)

`VectorStoreManager.search` (lines 181-209) delegates the k-nearest scan to
`faiss.IndexFlatL2`.  FAISS is an external library; its documented semantics
for a flat L2 index are embedded directly: exhaustive squared-L2 distances,
results sorted by ascending distance (ties by insertion order), and — when
`k` exceeds the number of stored vectors — padding of the label array with
`-1` and of the distance array with an FLT_MAX sentinel. -/

def sqDist (a b : List ℚ) : ℚ := ((a.zipWith (fun x y => (x - y) * (x - y)) b)).sum

/-- FAISS's FLT_MAX padding distance (`3.4028235e38`), exact. -/
def faissPadDist : ℚ := (34028235 : ℚ) * 10 ^ 31

/-- Stable insertion into a list sorted by ascending distance: an element is
placed before the first strictly larger key, so earlier elements win ties. -/
def insPair (x : ℚ × ℤ) : List (ℚ × ℤ) → List (ℚ × ℤ)
  | [] => [x]
  | y :: ys => if y.1 < x.1 then y :: insPair x ys else x :: y :: ys

def sortPairs (l : List (ℚ × ℤ)) : List (ℚ × ℤ) := l.foldr insPair []

/-- `index.search(query_vector, k)` on a flat L2 index over `db`. -/
def faissTopK (db : List (List ℚ)) (q : List ℚ) (k : ℕ) : List (ℚ × ℤ) :=
  let pairs := (db.enum.map (fun p => (sqDist p.2 q, (p.1 : ℤ))))
  let top := (sortPairs pairs).take k
  top ++ List.replicate (k - top.length) (faissPadDist, -1)

/-- Python list indexing `l[i]`: non-negative indices from the front,
negative indices from the back, `none` for an `IndexError`. -/
def pyGet (l : List α) (i : ℤ) : Option α :=
  if 0 ≤ i then l.get? i.toNat
  else if -(l.length : ℤ) ≤ i then l.get? (l.length - (-i).toNat)
  else none

/-- The result loop of `search` (vector_store.py lines 202-207): for each
returned `(distance, index)` pair, if `idx < len(chunks)` — a check that a
FAISS `-1` padding label passes — append `chunks[idx]` (Python indexing, so
`-1` silently selects the *last* chunk) annotated with its score.  An
out-of-range access would raise; that cannot occur for `k ≥ 0` on a
non-empty chunk list, and is modelled as a skip. -/
def vectorSearch (chunks : List α) (db : List (List ℚ)) (q : List ℚ) (k : ℕ) :
    List (α × ℚ) :=
  (faissTopK db q k).foldl (fun acc p =>
    if p.2 < (chunks.length : ℤ) then
      match pyGet chunks p.2 with
      | some c => acc ++ [(c, p.1)]
      | none => acc
    else acc) []

/-! ## Re-rank fallback (rag.py `_rerank`)

The generator call and JSON extraction are external; their outcome is a
parameter: `none` models a `json.loads` failure (or any exception before the
index loop), `some entries` a parsed `top_indices` list whose elements are
either ints or non-ints (`isinstance(idx, int)` filters the latter). -/

inductive JV where
  | jint (i : ℤ)
  | jother
deriving DecidableEq, Repr

/-- The index-selection loop (rag.py lines 105-108): keep int entries with
`idx < len(hits)` (a *signed* comparison, so negative indices pass) and fetch
`hits[idx]` with Python indexing; an out-of-range fetch raises `IndexError`,
aborting into the surrounding `except`. -/
def rerankSelect (hits : List α) (entries : List JV) : Except Unit (List α) :=
  entries.foldlM (fun acc e =>
    match e with
    | .jint i =>
      if i < (hits.length : ℤ) then
        match pyGet hits i with
        | some x => .ok (acc ++ [x])
        | none => .error ()
      else .ok acc
    | .jother => .ok acc) []

/-- RAGManager._rerank (rag.py lines 56-115): empty hits yield `[]`; a parse
failure or a raised exception falls back to the first `top_n` hits, as does
an empty selection (`reranked_hits if reranked_hits else hits[:top_n]`). -/
def rerankModel (hits : List α) (topN : ℕ) (parsed : Option (List JV)) : List α :=
  if hits.isEmpty then []
  else
    match parsed with
    | none => hits.take topN
    | some entries =>
      match rerankSelect hits entries with
      | .error _ => hits.take topN
      | .ok r => if r.isEmpty then hits.take topN else r

/-! ## Shared material for the claim theorems -/

/-- An embedding oracle whose first call fails: models a raised exception in
`client.embeddings.create` (semantic.py line 62). -/
def failOracle (msg : List Char) :
    List (List Char) → Except (List Char) (List (List ℝ)) :=
  fun _ => Except.error msg

/-- Strip one injected context-path prefix `Context: <path>\n\n` from a chunk
content, leaving other contents untouched ("ignoring injected context-path
prefixes" in the reconstruction claims). -/
def dropCtx (c : List Char) : List Char :=
  if "Context: ".data.isPrefixOf c then
    match splitOnSep "\n\n".data c with
    | [] => c
    | _ :: rest => joinSep "\n\n".data rest
  else c

/-- Contents of a result, concatenated in order. -/
def catContents (r : ChunkResult) : List Char :=
  (r.chunks.map Chunk.content).flatten

/-- Orders of a result. -/
def ordersOf (r : ChunkResult) : List ℕ := r.chunks.map Chunk.order

theorem mkChunksFrom_orders (k : ℕ) (cs : List (List Char)) :
    (mkChunksFrom k cs).map Chunk.order = List.range' k cs.length := by
  induction cs generalizing k with
  | nil => simp [mkChunksFrom]
  | cons c cs ih => simp [mkChunksFrom, List.range', ih]

theorem mkChunks_orders (cs : List (List Char)) :
    (mkChunks cs).map Chunk.order = List.range' 1 cs.length :=
  mkChunksFrom_orders 1 cs

theorem mkChunksFrom_contents (k : ℕ) (cs : List (List Char)) :
    (mkChunksFrom k cs).map Chunk.content = cs := by
  induction cs generalizing k with
  | nil => simp [mkChunksFrom]
  | cons c cs ih => simp [mkChunksFrom, ih]

theorem mkChunksFrom_length (k : ℕ) (cs : List (List Char)) :
    (mkChunksFrom k cs).length = cs.length := by
  induction cs generalizing k with
  | nil => simp [mkChunksFrom]
  | cons c cs ih => simp [mkChunksFrom, ih]

/-! ## C1 — vector search with k > N -/

/-- C1: the claim "for a collection of N chunks and k > N, search returns all
N chunks and never more than N" fails on the code: FAISS pads the label array
with `-1` once the collection is exhausted, `-1 < len(chunks)` passes the
guard, and Python's negative indexing turns `chunks[-1]` into the last chunk.
For a one-chunk collection and `k = 2` the code returns two results — the
chunk twice, the second copy carrying the FLT_MAX sentinel distance. -/
theorem c1_search_pads_beyond_n :
    vectorSearch ["c0"] [[0]] [1] 2 = [("c0", 1), ("c0", faissPadDist)] ∧
    1 < (vectorSearch ["c0"] [[0]] [1] 2).length := by
  have h : vectorSearch ["c0"] [[0]] [1] 2 = [("c0", 1), ("c0", faissPadDist)] := by
    norm_num [vectorSearch, faissTopK, sortPairs, insPair, sqDist, pyGet,
      faissPadDist, List.enum, List.enumFrom]
  exact ⟨h, by rw [h]; norm_num⟩

/-! ## C2 — chunk orders, counterexample and amended claim -/

/-- C2 counterexample: on the semantic chunker's embedding-failure path the
single diagnostic chunk has `order = 0`, so the orders are `[0]`, not the
contiguous `1..N` sequence the claim asserts for every strategy and path. -/
theorem c2_counterexample :
    ordersOf (semanticChunk (failOracle "boom".data) 0 "A. B.".data) = [0] ∧
    ordersOf (semanticChunk (failOracle "boom".data) 0 "A. B.".data) ≠
      List.range' 1 (semanticChunk (failOracle "boom".data) 0 "A. B.".data).chunks.length := by
  have hs : sentencesOf "A. B.".data = ["A.".data, "B.".data] := by
    simp [sentencesOf, sentSplit, sentSplitAux, stripWs, isWs, isSentEnd, headIsWs]
  have h : semanticChunk (failOracle "boom".data) 0 "A. B.".data =
      ⟨[⟨"error".data, 0, "Embedding Error: boom".data⟩], 0⟩ := by
    simp [semanticChunk, semanticCore, hs, batchEmbed, groupsOf, failOracle, Except.map]
  rw [h]
  constructor
  · rfl
  · simp [ordersOf, List.range']

/-! ## C10 — num_chunks versus chunk count, counterexample -/

/-- C10 counterexample: the semantic chunker's embedding-failure path returns
one diagnostic chunk while reporting `num_chunks = 0`. -/
theorem c10_counterexample :
    (semanticChunk (failOracle "fail".data) 0 "A. B.".data).chunks.length = 1 ∧
    (semanticChunk (failOracle "fail".data) 0 "A. B.".data).numChunks = 0 ∧
    (semanticChunk (failOracle "fail".data) 0 "A. B.".data).numChunks ≠
      (semanticChunk (failOracle "fail".data) 0 "A. B.".data).chunks.length := by
  have hs : sentencesOf "A. B.".data = ["A.".data, "B.".data] := by
    simp [sentencesOf, sentSplit, sentSplitAux, stripWs, isWs, isSentEnd, headIsWs]
  have h : semanticChunk (failOracle "fail".data) 0 "A. B.".data =
      ⟨[⟨"error".data, 0, "Embedding Error: fail".data⟩], 0⟩ := by
    simp [semanticChunk, semanticCore, hs, batchEmbed, groupsOf, failOracle, Except.map]
  rw [h]
  refine ⟨rfl, rfl, by simp⟩

/-! ## C9 — hierarchy chunker heading paths -/

/-- C9: on `"# A\ntext1\n## B\ntext2\n# C\ntext3"` the hierarchy chunker
yields exactly three chunks whose heading paths are `A`, `A > B` and `C`
(carried in the injected `Context:` prefixes): the `## B` heading is nested
under `A`, and `# C` pops both stacked headings before being pushed. -/
theorem c9_hierarchy_paths :
    (hierarchyChunk 2000 true "# A\ntext1\n## B\ntext2\n# C\ntext3".data).chunks.map
        Chunk.content =
      ["Context: A\n\ntext1".data, "Context: A > B\n\ntext2".data,
        "Context: C\n\ntext3".data] := by
  simp [hierarchyChunk, hierWalk, flushChunk, headerMatch, pathStr, withCtx, subSplitGo,
    splitOnSep, stripWs, joinSep, mkChunks, mkChunksFrom, isWs, headIsWs,
    List.isPrefixOf, List.dropWhile, List.takeWhile]

/-! ## C6 — re-rank fallback, counterexample and amended claim -/

/-- C6 counterexample: with two hits and parsed indices `[0, 5]` — the `5` is
outside the range of the retrieved set — the code does *not* fall back to the
first `top_n` hits: it silently drops the invalid index and returns the
single selected hit, which is also fewer results than the fallback provides. -/
theorem c6_counterexample :
    rerankModel [10, 20] 2 (some [JV.jint 0, JV.jint 5]) = [10] ∧
    rerankModel [10, 20] 2 (some [JV.jint 0, JV.jint 5]) ≠ ([10, 20] : List ℕ).take 2 ∧
    (rerankModel [10, 20] 2 (some [JV.jint 0, JV.jint 5])).length <
      (([10, 20] : List ℕ).take 2).length := by
  refine ⟨by decide, by decide, by decide⟩

/-- C6 amended: the fallback to the first `top_n` hits is taken exactly when
the structured output cannot be parsed, when fetching a selected index raises
(an index below `-len(hits)`), or when *no* entry survives the
int-and-in-range filter; out-of-range non-negative indices are dropped
individually rather than triggering the fallback.  With non-empty hits and
`top_n > 0` re-ranking always returns at least one result. -/
theorem c6_rerank_amended {α : Type} (hits : List α) (topN : ℕ)
    (entries : List JV) (parsed : Option (List JV)) :
    (rerankModel hits topN none = hits.take topN) ∧
    (rerankSelect hits entries = .error () →
      rerankModel hits topN (some entries) = hits.take topN) ∧
    (rerankSelect hits entries = .ok [] →
      rerankModel hits topN (some entries) = hits.take topN) ∧
    (hits ≠ [] → 0 < topN → rerankModel hits topN parsed ≠ []) := by
  refine ⟨?_, ?_, ?_, ?_⟩
  · cases hits <;> simp [rerankModel]
  · intro h
    cases hits with
    | nil => simp [rerankModel]
    | cons a l => simp [rerankModel, h]
  · intro h
    cases hits with
    | nil => simp [rerankModel]
    | cons a l => simp [rerankModel, h]
  · intro hne htop
    have htake : hits.take topN ≠ [] := by
      cases hits with
      | nil => exact absurd rfl hne
      | cons a l => cases topN with
        | zero => omega
        | succ n => simp
    cases hits with
    | nil => exact absurd rfl hne
    | cons a l =>
      cases parsed with
      | none => simpa [rerankModel] using htake
      | some es =>
        simp only [rerankModel, List.isEmpty_cons, Bool.false_eq_true, if_false]
        cases hsel : rerankSelect (a :: l) es with
        | error u => simpa using htake
        | ok r =>
          cases r with
          | nil => simpa using htake
          | cons x xs => simp

/-! ## C3 — exact cache hit gated on positive feedback -/

/-- C3: after `save`, a `check` with the identical query and state hash under
`only_positive` misses while the entry has no positive feedback (also after a
"down"), and after exactly one "up" and zero "down" it hits: the stored
answer comes back with similarity `1.0` (the pair `(1, 1)` represents `1.0`)
and the entry's `hit_count` is incremented to `1`. -/
theorem c3_cache_feedback_gate (q ans sources hash : List Char)
    (emb qe : Option (List ℚ)) (t : ℚ) :
    (checkCache (saveToCache emptyCache q ans sources hash emb) q hash
        .onlyPositive qe t) = (none, saveToCache emptyCache q ans sources hash emb) ∧
    (checkCache (updateFeedback (saveToCache emptyCache q ans sources hash emb)
        q hash "down".data) q hash .onlyPositive qe t).1 = none ∧
    (checkCache (updateFeedback (saveToCache emptyCache q ans sources hash emb)
        q hash "up".data) q hash .onlyPositive qe t).1 =
      some ⟨stripWs q, ans, sources, qRep 1⟩ ∧
    ((checkCache (updateFeedback (saveToCache emptyCache q ans sources hash emb)
        q hash "up".data) q hash .onlyPositive qe t).2.entries.map
          CacheEntry.hitCount) = [1] := by
  refine ⟨?_, ?_, ?_, ?_⟩
  · cases qe with
    | none =>
      simp [checkCache, exactFilter, approxCands, saveToCache, emptyCache, latestOf, condOf]
    | some v =>
      by_cases hv : v ≠ [] ∧ t < 1 <;>
        simp [checkCache, exactFilter, approxCands, saveToCache, emptyCache, latestOf, condOf, approxGo, hv]
  · cases qe with
    | none =>
      simp [checkCache, exactFilter, approxCands, saveToCache, emptyCache, latestOf, condOf, updateFeedback]
    | some v =>
      by_cases hv : v ≠ [] ∧ t < 1 <;>
        simp [checkCache, exactFilter, approxCands, saveToCache, emptyCache, latestOf, condOf, approxGo,
          updateFeedback, hv]
  · simp [checkCache, exactFilter, approxCands, saveToCache, emptyCache, latestOf, condOf, updateFeedback]
  · simp [checkCache, exactFilter, approxCands, saveToCache, emptyCache, latestOf, condOf, updateFeedback, bumpHit]

/-! ## C4 — approximate cache stage -/

/-- A candidate usable by the scan: it carries an embedding whose length
matches the query embedding's (otherwise `np.dot` raises and the bare
`except` skips the candidate). -/
def embOkFor (qe : List ℚ) (e : CacheEntry) : Bool :=
  match e.queryEmbedding with
  | some emb => decide (emb.length = qe.length)
  | none => false

/-- The similarity the scan computes for a candidate. -/
def simSt (qe : List ℚ) (e : CacheEntry) : SimRep :=
  match e.queryEmbedding with
  | some emb => simOf qe emb
  | none => qRep 0

/-- First-winner maximum fold over candidates: a later candidate replaces the
current best only when strictly more similar. -/
def bestFold (qe : List ℚ) : List CacheEntry → Option CacheEntry → Option CacheEntry
  | [], acc => acc
  | e :: rest, acc =>
    bestFold qe rest
      (match acc with
       | none => some e
       | some b => if simLt (simSt qe b) (simSt qe e) then some e else some b)

/-- Spec-side selection, written after the spec's words ("among candidates at
or above `threshold`, select the one with maximum similarity, ties broken by
encounter order"): filter the usable candidates at or above the threshold,
then take the first maximum. -/
def specSelectApprox (qe : List ℚ) (t : ℚ) (cands : List CacheEntry) :
    Option CacheEntry :=
  bestFold qe
    (cands.filter (fun e => embOkFor qe e && !simLt (simSt qe e) (qRep t))) none

theorem simOf_pos_snd (qe emb : List ℚ) : 0 < (simOf qe emb).2 := by
  unfold simOf
  by_cases h : 0 < dotQ qe qe * dotQ emb emb <;> simp [h, qRep]

theorem simSt_pos_snd (qe : List ℚ) (e : CacheEntry) : 0 < (simSt qe e).2 := by
  unfold simSt
  cases e.queryEmbedding with
  | none => simp [qRep]
  | some emb => exact simOf_pos_snd qe emb

theorem qRep_pos_snd (t : ℚ) : 0 < (qRep t).2 := by simp [qRep]

/-- `simLt` translated to real comparisons for candidate similarities. -/
theorem simLt_simSt_iff (qe : List ℚ) (e x : CacheEntry) :
    simLt (simSt qe e) (simSt qe x) = true ↔
      simVal (simSt qe e) < simVal (simSt qe x) :=
  simLt_iff _ _ (simSt_pos_snd qe e) (simSt_pos_snd qe x)

/-- The scan of the source equals the spec-side selection, and the reported
similarity is the selected candidate's: induction over candidates with the
invariant that `best`/`max_sim` describe the prefix processed so far.  The
hypothesis `-1 < t` rules out the degenerate threshold at which the `-1.0`
initialisation of `max_sim` would mask a candidate of similarity exactly
`-1`. -/
theorem bestFold_some_ne_none (qe : List ℚ) :
    ∀ (l : List CacheEntry) (b : CacheEntry), bestFold qe l (some b) ≠ none := by
  intro l
  induction l with
  | nil => intro b h; simp [bestFold] at h
  | cons e rest ih =>
    intro b
    simp only [bestFold]
    by_cases h : simLt (simSt qe b) (simSt qe e) = true
    · simp only [h, if_pos]; exact ih e
    · rw [Bool.not_eq_true] at h; simp only [h]; exact ih b

theorem approxGo_eq_bestFold (qe : List ℚ) (t : ℚ) (ht : -1 < t) :
    ∀ (cands : List CacheEntry) (best : Option CacheEntry) (ms : SimRep),
      (best = none → ms = qRep (-1)) →
      (∀ b, best = some b → ms = simSt qe b) →
      approxGo qe t cands best ms =
        (bestFold qe (cands.filter
            (fun e => embOkFor qe e && !simLt (simSt qe e) (qRep t))) best,
         match bestFold qe (cands.filter
            (fun e => embOkFor qe e && !simLt (simSt qe e) (qRep t))) best with
         | none => ms
         | some e => simSt qe e) := by
  intro cands
  induction cands with
  | nil =>
    intro best ms h0 h1
    cases best with
    | none => simp [approxGo, bestFold]
    | some b => simp [approxGo, bestFold, h1 b rfl]
  | cons e rest ih =>
    intro best ms h0 h1
    by_cases hok : embOkFor qe e = true
    · -- usable candidate
      obtain ⟨emb, hemb, hlen⟩ : ∃ emb, e.queryEmbedding = some emb ∧ emb.length = qe.length := by
        unfold embOkFor at hok
        cases hcase : e.queryEmbedding with
        | none => rw [hcase] at hok; simp at hok
        | some emb => rw [hcase] at hok; simp at hok; exact ⟨emb, rfl, hok⟩
      have hsim : simSt qe e = simOf qe emb := by unfold simSt; rw [hemb]
      by_cases hth : simLt (simSt qe e) (qRep t) = true
      · -- below threshold: both sides skip it
        have hfilter : (e :: rest).filter
            (fun x => embOkFor qe x && !simLt (simSt qe x) (qRep t)) =
            rest.filter (fun x => embOkFor qe x && !simLt (simSt qe x) (qRep t)) := by
          simp [List.filter_cons, hth]
        rw [hfilter]
        have hstep : approxGo qe t (e :: rest) best ms = approxGo qe t rest best ms := by
          simp only [approxGo, hemb, hlen, if_pos rfl]
          rw [← hsim]
          simp [hth]
        rw [hstep]
        exact ih best ms h0 h1
      · -- at or above threshold
        have hfilter : (e :: rest).filter
            (fun x => embOkFor qe x && !simLt (simSt qe x) (qRep t)) =
            e :: rest.filter (fun x => embOkFor qe x && !simLt (simSt qe x) (qRep t)) := by
          simp [List.filter_cons, hok, hth]
        rw [hfilter]
        have htve : simVal (qRep t) ≤ simVal (simSt qe e) := by
          by_contra hlt
          push_neg at hlt
          exact hth ((simLt_iff _ _ (simSt_pos_snd qe e) (qRep_pos_snd t)).mpr hlt)
        cases best with
        | none =>
          -- max_sim = -1 < t ≤ sim e: the candidate is accepted
          have hms : ms = qRep (-1) := h0 rfl
          have haccept : simLt ms (simSt qe e) = true := by
            rw [hms]
            refine (simLt_iff _ _ (qRep_pos_snd (-1)) (simSt_pos_snd qe e)).mpr ?_
            rw [simVal_qRep]
            calc ((-1 : ℚ) : ℝ) < (t : ℚ) := by exact_mod_cast ht
              _ = simVal (qRep t) := (simVal_qRep t).symm
              _ ≤ _ := htve
          have hstep : approxGo qe t (e :: rest) none ms =
              approxGo qe t rest (some e) (simSt qe e) := by
            simp only [approxGo, hemb, hlen, if_pos rfl]
            rw [← hsim]
            simp [hth, haccept]
          rw [hstep]
          have := ih (some e) (simSt qe e) (by intro h; cases h) (by intro b hb; cases hb; rfl)
          rw [this]
          simp only [bestFold]
          cases hbf : bestFold qe (rest.filter
              (fun x => embOkFor qe x && !simLt (simSt qe x) (qRep t))) (some e) with
          | none => exact absurd hbf (bestFold_some_ne_none qe _ e)
          | some r => rfl
        | some b =>
          have hms : ms = simSt qe b := h1 b rfl
          by_cases hrepl : simLt (simSt qe b) (simSt qe e) = true
          · have hstep : approxGo qe t (e :: rest) (some b) ms =
                approxGo qe t rest (some e) (simSt qe e) := by
              simp only [approxGo, hemb, hlen, if_pos rfl]
              rw [← hsim]
              simp [hth, hms, hrepl]
            rw [hstep]
            have := ih (some e) (simSt qe e) (by intro h; cases h) (by intro x hx; cases hx; rfl)
            rw [this]
            simp only [bestFold, hrepl, if_pos]
            cases hbf : bestFold qe (rest.filter
                (fun x => embOkFor qe x && !simLt (simSt qe x) (qRep t))) (some e) with
            | none => exact absurd hbf (bestFold_some_ne_none qe _ e)
            | some r => rfl
          · have hstep : approxGo qe t (e :: rest) (some b) ms =
                approxGo qe t rest (some b) ms := by
              simp only [approxGo, hemb, hlen, if_pos rfl]
              rw [← hsim]
              simp [hth, hms, hrepl]
            rw [hstep]
            have := ih (some b) ms h0 h1
            rw [this]
            rw [Bool.not_eq_true] at hrepl
            cases hbf : bestFold qe (rest.filter
                (fun x => embOkFor qe x && !simLt (simSt qe x) (qRep t))) (some b) with
            | none => exact absurd hbf (bestFold_some_ne_none qe _ b)
            | some r => simp [bestFold, hrepl, hbf]
    · -- unusable candidate (no embedding or wrong length): both sides skip
      have hfilter : (e :: rest).filter
          (fun x => embOkFor qe x && !simLt (simSt qe x) (qRep t)) =
          rest.filter (fun x => embOkFor qe x && !simLt (simSt qe x) (qRep t)) := by
        simp [List.filter_cons, hok]
      rw [hfilter]
      have hstep : approxGo qe t (e :: rest) best ms = approxGo qe t rest best ms := by
        unfold embOkFor at hok
        cases hcase : e.queryEmbedding with
        | none => simp [approxGo, hcase]
        | some emb =>
          rw [hcase] at hok
          simp only [decide_eq_true_eq] at hok
          simp [approxGo, hcase, hok]
      rw [hstep]
      exact ih best ms h0 h1

/-- No candidate strictly beats the fold's winner, and the winner comes from
the candidate list (or the initial accumulator). -/
theorem bestFold_max (qe : List ℚ) :
    ∀ (l : List CacheEntry) (acc : Option CacheEntry) (r : CacheEntry),
      bestFold qe l acc = some r →
      (acc = some r ∨ r ∈ l) ∧
      (∀ x ∈ l, ¬ simVal (simSt qe r) < simVal (simSt qe x)) ∧
      (∀ b, acc = some b → ¬ simVal (simSt qe r) < simVal (simSt qe b)) := by
  intro l
  induction l with
  | nil =>
    intro acc r h
    simp only [bestFold] at h
    refine ⟨Or.inl h, by simp, ?_⟩
    intro b hb
    rw [h] at hb
    cases hb
    exact lt_irrefl _
  | cons e rest ih =>
    intro acc r h
    cases acc with
    | none =>
      simp only [bestFold] at h
      obtain ⟨h1, h2, h3⟩ := ih (some e) r h
      refine ⟨?_, ?_, ?_⟩
      · cases h1 with
        | inl he => cases he; exact Or.inr (List.mem_cons_self _ _)
        | inr hr => exact Or.inr (List.mem_cons_of_mem _ hr)
      · intro x hx
        cases hx with
        | head => exact h3 e rfl
        | tail _ hx => exact h2 x hx
      · intro b hb; cases hb
    | some a =>
      simp only [bestFold] at h
      by_cases hlt : simLt (simSt qe a) (simSt qe e) = true
      · rw [if_pos hlt] at h
        have hlt' : simVal (simSt qe a) < simVal (simSt qe e) :=
          (simLt_simSt_iff qe a e).mp hlt
        obtain ⟨h1, h2, h3⟩ := ih (some e) r h
        have hre : ¬ simVal (simSt qe r) < simVal (simSt qe e) := h3 e rfl
        refine ⟨?_, ?_, ?_⟩
        · cases h1 with
          | inl he => cases he; exact Or.inr (List.mem_cons_self _ _)
          | inr hr => exact Or.inr (List.mem_cons_of_mem _ hr)
        · intro x hx
          cases hx with
          | head => exact hre
          | tail _ hx => exact h2 x hx
        · intro b hb
          cases hb
          intro hcon
          exact hre (lt_trans hcon hlt')
      · rw [if_neg hlt] at h
        have hge : ¬ simVal (simSt qe a) < simVal (simSt qe e) := by
          intro hcon
          exact hlt ((simLt_simSt_iff qe a e).mpr hcon)
        obtain ⟨h1, h2, h3⟩ := ih (some a) r h
        have hra : ¬ simVal (simSt qe r) < simVal (simSt qe a) := h3 a rfl
        refine ⟨?_, ?_, ?_⟩
        · cases h1 with
          | inl he => exact Or.inl he
          | inr hr => exact Or.inr (List.mem_cons_of_mem _ hr)
        · intro x hx
          cases hx with
          | head =>
            intro hcon
            push_neg at hge hra
            exact absurd hcon (by push_neg; exact le_trans hge hra)
          | tail _ hx => exact h2 x hx
        · intro b hb
          cases hb
          exact hra


/-- The fold over an empty candidate list (and no prior best) misses;
otherwise it returns some candidate. -/
theorem bestFold_none_iff (qe : List ℚ) :
    ∀ l : List CacheEntry, bestFold qe l none = none ↔ l = [] := by
  intro l
  cases l with
  | nil => simp [bestFold]
  | cons e rest =>
    simp only [bestFold]
    constructor
    · intro h
      exact absurd h (bestFold_some_ne_none qe rest e)
    · intro h
      cases h

/-- A stored interaction whose query embedding `[1, 2]` has cosine similarity
`4/5 = 0.80` to the query embedding `[2, 1]` (represented `(4, 25)`,
`4 / sqrt 25`). -/
def c4entry1 : CacheEntry :=
  ⟨1, "q1".data, "a1".data, "s1".data, "h".data, 0, 0, 0, some [1, 2], 1⟩

/-- A second stored interaction at cosine similarity `1.0` to `[2, 1]`. -/
def c4entry2 : CacheEntry :=
  ⟨2, "q2".data, "a2".data, "s2".data, "h".data, 0, 0, 0, some [2, 1], 2⟩

def c4st1 : CacheState := ⟨[c4entry1], 2⟩

def c4st2 : CacheState := ⟨[c4entry1, c4entry2], 3⟩

/-- C4: the approximate stage runs only when the exact stage misses, a
(truthy) query embedding was supplied and `threshold < 1.0`; it then selects
exactly what the spec-side `specSelectApprox` selects — the first maximal
candidate at or above the threshold among the filtered rows that carry a
usable embedding — bumping the winner's `hit_count`, and it misses iff no
candidate qualifies.  `specSelectApprox`'s winner is maximal (no qualifying
candidate is strictly more similar).  Concretely: an entry at similarity
`0.80` misses at threshold `0.95` and hits at `0.75`, and with a second
candidate at similarity `1.0` the higher one is returned. -/
theorem c4_approx_cache (st : CacheState) (q hash : List Char) (mode : FilterMode)
    (v : List ℚ) (t : ℚ) (qe : Option (List ℚ)) :
    (∀ e, latestOf (exactFilter st q hash mode) = some e →
      checkCache st q hash mode qe t =
        (some ⟨e.query, e.answer, e.sources, qRep 1⟩, bumpHit st e.id)) ∧
    (latestOf (exactFilter st q hash mode) = none →
      checkCache st q hash mode none t = (none, st)) ∧
    (latestOf (exactFilter st q hash mode) = none → 1 ≤ t ∨ v = [] →
      checkCache st q hash mode (some v) t = (none, st)) ∧
    (latestOf (exactFilter st q hash mode) = none → v ≠ [] → t < 1 → -1 < t →
      (checkCache st q hash mode (some v) t).1 =
        (specSelectApprox v t (approxCands st hash mode)).map
          (fun e => ⟨e.query, e.answer, e.sources, simSt v e⟩) ∧
      (∀ e, specSelectApprox v t (approxCands st hash mode) = some e →
        (checkCache st q hash mode (some v) t).2 = bumpHit st e.id) ∧
      ((checkCache st q hash mode (some v) t).1 = none ↔
        (approxCands st hash mode).filter
          (fun e => embOkFor v e && !simLt (simSt v e) (qRep t)) = [])) ∧
    (∀ (cands : List CacheEntry) (r : CacheEntry),
      specSelectApprox v t cands = some r →
      r ∈ cands ∧
      ∀ x ∈ cands, embOkFor v x = true → simLt (simSt v x) (qRep t) = false →
        ¬ simVal (simSt v r) < simVal (simSt v x)) ∧
    (checkCache c4st1 "q".data "h".data .unfiltered (some [2, 1]) (19/20)).1 = none ∧
    (checkCache c4st1 "q".data "h".data .unfiltered (some [2, 1]) (3/4)).1 =
      some ⟨"q1".data, "a1".data, "s1".data, (4, 25)⟩ ∧
    (checkCache c4st2 "q".data "h".data .unfiltered (some [2, 1]) (3/4)).1 =
      some ⟨"q2".data, "a2".data, "s2".data, (5, 25)⟩ := by
  have hgo := fun (ht : -1 < t) (cands : List CacheEntry) =>
    approxGo_eq_bestFold v t ht cands none (qRep (-1)) (fun _ => rfl) (fun b hb => by cases hb)
  refine ⟨?_, ?_, ?_, ?_, ?_, ?_, ?_, ?_⟩
  · intro e he
    simp [checkCache, he]
  · intro hmiss
    simp [checkCache, hmiss]
  · intro hmiss hdeg
    rcases hdeg with ht | hv
    · have : ¬ (v ≠ [] ∧ t < 1) := by
        intro ⟨_, h2⟩; exact absurd ht (not_le.mpr h2)
      simp [checkCache, hmiss, this]
    · have : ¬ (v ≠ [] ∧ t < 1) := by
        intro ⟨h1, _⟩; exact h1 hv
      simp [checkCache, hmiss, this]
  · intro hmiss hv ht1 htm1
    have hcond : v ≠ [] ∧ t < 1 := ⟨hv, ht1⟩
    have hgo' := hgo htm1 (approxCands st hash mode)
    refine ⟨?_, ?_, ?_⟩
    · simp only [checkCache, hmiss, if_pos hcond, hgo', specSelectApprox]
      cases hbf : bestFold v ((approxCands st hash mode).filter
          (fun e => embOkFor v e && !simLt (simSt v e) (qRep t))) none with
      | none => simp
      | some r => simp
    · intro e he
      simp only [specSelectApprox] at he
      simp only [checkCache, hmiss, if_pos hcond, hgo', he]
    · simp only [checkCache, hmiss, if_pos hcond, hgo', specSelectApprox]
      cases hbf : bestFold v ((approxCands st hash mode).filter
          (fun e => embOkFor v e && !simLt (simSt v e) (qRep t))) none with
      | none =>
        simp only [hbf]
        simp [(bestFold_none_iff v _).mp hbf]
      | some r =>
        simp only [hbf]
        constructor
        · intro h; cases h
        · intro h
          rw [h] at hbf
          have := (bestFold_none_iff v []).mpr rfl
          rw [hbf] at this
          cases this
  · intro cands r hr
    simp only [specSelectApprox] at hr
    obtain ⟨h1, h2, _⟩ := bestFold_max v _ none r hr
    constructor
    · cases h1 with
      | inl h => cases h
      | inr h => exact (List.mem_filter.mp h).1
    · intro x hx hok hth
      exact h2 x (List.mem_filter.mpr ⟨hx, by simp [hok, hth]⟩)
  · simp [checkCache, exactFilter, approxCands, latestOf, condOf, approxGo,
      simOf, simSt, dotQ, simLt, qRep, stripWs, isWs, c4st1, c4entry1,
      List.dropWhile, List.filter]
    norm_num
  · simp [checkCache, exactFilter, approxCands, latestOf, condOf, approxGo,
      simOf, simSt, dotQ, simLt, qRep, stripWs, isWs, c4st1, c4entry1,
      List.dropWhile, List.filter]
    norm_num
  · simp [checkCache, exactFilter, approxCands, latestOf, condOf, approxGo,
      simOf, simSt, dotQ, simLt, qRep, stripWs, isWs, c4st2, c4entry1, c4entry2,
      List.dropWhile, List.filter]
    norm_num

/-- Witness for C4: the selection equivalence instantiated on the concrete
one-entry state at threshold `0.75`, with every hypothesis discharged. -/
theorem c4_witness :
    latestOf (exactFilter c4st1 "q".data "h".data .unfiltered) = none ∧
    (([2, 1] : List ℚ) ≠ []) ∧ ((3/4 : ℚ) < 1) ∧ ((-1 : ℚ) < 3/4) ∧
    ((checkCache c4st1 "q".data "h".data .unfiltered (some [2, 1]) (3/4)).1 =
        (specSelectApprox [2, 1] (3/4) (approxCands c4st1 "h".data .unfiltered)).map
          (fun e => ⟨e.query, e.answer, e.sources, simSt [2, 1] e⟩) ∧
      (∀ e, specSelectApprox [2, 1] (3/4) (approxCands c4st1 "h".data .unfiltered) = some e →
        (checkCache c4st1 "q".data "h".data .unfiltered (some [2, 1]) (3/4)).2 =
          bumpHit c4st1 e.id) ∧
      ((checkCache c4st1 "q".data "h".data .unfiltered (some [2, 1]) (3/4)).1 = none ↔
        (approxCands c4st1 "h".data .unfiltered).filter
          (fun e => embOkFor [2, 1] e && !simLt (simSt [2, 1] e) (qRep (3/4))) = [])) := by
  have hlat : latestOf (exactFilter c4st1 "q".data "h".data .unfiltered) = none := by
    simp [exactFilter, latestOf, condOf, stripWs, isWs, c4st1, c4entry1,
      List.dropWhile, List.filter]
  exact ⟨hlat, by simp, by norm_num, by norm_num,
    (c4_approx_cache c4st1 "q".data "h".data .unfiltered [2, 1] (3/4) (some [2, 1])).2.2.2.1
      hlat (by simp) (by norm_num) (by norm_num)⟩

/-- Witness for C6 amended: two hits, `top_n = 2`, and a parsed index list
whose only entry is out of range, so the selection is empty and the fallback
fires; the non-emptiness guarantee instantiated at the same input. -/
theorem c6_witness :
    rerankSelect ([10, 20] : List ℕ) [JV.jint 99] = .ok [] ∧
    rerankModel ([10, 20] : List ℕ) 2 (some [JV.jint 99]) = ([10, 20] : List ℕ).take 2 ∧
    (([10, 20] : List ℕ) ≠ []) ∧ (0 < 2) ∧
    rerankModel ([10, 20] : List ℕ) 2 (some [JV.jint 99]) ≠ [] := by
  have hsel : rerankSelect ([10, 20] : List ℕ) [JV.jint 99] = .ok [] := by
    rfl
  have h := c6_rerank_amended ([10, 20] : List ℕ) 2 [JV.jint 99] (some [JV.jint 99])
  exact ⟨hsel, h.2.2.1 hsel, by simp, by norm_num, h.2.2.2 (by simp) (by norm_num)⟩

/-! ## C7 — semantic chunker edge behaviour -/

/-- C7: on a single-sentence input the semantic chunker returns exactly one
chunk with the sentence as content, for *every* embedding oracle — the
result does not depend on the oracle because the single-sentence branch
returns before any embedding call (and hence before any distance
computation); and when the (first) embedding call fails, the result is the
single diagnostic chunk describing the error instead of a raised
exception. -/
theorem c7_semantic_edges :
    (∀ (o : List (List Char) → Except (List Char) (List (List ℝ))) (thr : ℝ)
        (text s : List Char), sentencesOf text = [s] →
      semanticChunk o thr text = ⟨[⟨chunkId 1, 1, s⟩], 1⟩) ∧
    (∀ (o : List (List Char) → Except (List Char) (List (List ℝ))) (thr : ℝ)
        (text e : List Char),
        2 ≤ (sentencesOf text).length →
        batchEmbed o (sentencesOf text) = .error e →
      semanticChunk o thr text =
        ⟨[⟨"error".data, 0, "Embedding Error: ".data ++ e⟩], 0⟩) := by
  constructor
  · intro o thr text s h
    unfold semanticChunk
    rw [h]
    simp [semanticCore]
  · intro o thr text e hlen herr
    unfold semanticChunk
    cases hs : sentencesOf text with
    | nil => rw [hs] at hlen; simp at hlen
    | cons s0 rest =>
      cases rest with
      | nil => rw [hs] at hlen; simp at hlen
      | cons s1 srest =>
        rw [hs] at herr
        simp only [semanticCore, herr]

/-- Witness for C7: a one-sentence text with a trivial oracle, and a
two-sentence text with a failing oracle. -/
theorem c7_witness :
    sentencesOf "Hello.".data = ["Hello.".data] ∧
    semanticChunk (fun _ => Except.ok []) 0 "Hello.".data =
      ⟨[⟨chunkId 1, 1, "Hello.".data⟩], 1⟩ ∧
    2 ≤ (sentencesOf "A. B.".data).length ∧
    batchEmbed (failOracle "boom".data) (sentencesOf "A. B.".data) =
      .error "boom".data ∧
    semanticChunk (failOracle "boom".data) 0 "A. B.".data =
      ⟨[⟨"error".data, 0, "Embedding Error: ".data ++ "boom".data⟩], 0⟩ := by
  have h1 : sentencesOf "Hello.".data = ["Hello.".data] := by
    simp [sentencesOf, sentSplit, sentSplitAux, stripWs, isWs, isSentEnd, headIsWs]
  have h2 : sentencesOf "A. B.".data = ["A.".data, "B.".data] := by
    simp [sentencesOf, sentSplit, sentSplitAux, stripWs, isWs, isSentEnd, headIsWs]
  have h3 : batchEmbed (failOracle "boom".data) (sentencesOf "A. B.".data) =
      .error "boom".data := by
    rw [h2]; simp [batchEmbed, groupsOf, failOracle, Except.map]
  exact ⟨h1, c7_semantic_edges.1 _ 0 _ _ h1, by rw [h2]; norm_num, h3,
    c7_semantic_edges.2 _ 0 _ _ (by rw [h2]; norm_num) h3⟩

/-! ## C2 amended and C10 amended -/

theorem ordersOf_mkChunks (cs : List (List Char)) (n : ℕ) :
    ordersOf ⟨mkChunks cs, n⟩ = List.range' 1 (mkChunks cs).length := by
  unfold ordersOf
  simp only [mkChunks, mkChunksFrom_orders, mkChunksFrom_length]

/-- C2 amended: for the sentence (with a positive group size — the source
raises `ValueError` at zero), paragraph, hierarchy and recursive chunkers on
every input and configuration, and for the semantic chunker on its
empty/single-sentence path and on its successful-embedding path, the `order`
values are the contiguous sequence `1..N`; on the semantic chunker's
embedding-failure path the single diagnostic chunk instead carries
`order = 0`. -/
theorem c2_orders_amended :
    (∀ (spc : ℕ) (text : List Char), 1 ≤ spc →
      ordersOf (sentenceChunk spc text) =
        List.range' 1 (sentenceChunk spc text).chunks.length) ∧
    (∀ (minLen : ℕ) (text : List Char),
      ordersOf (paragraphChunk minLen text) =
        List.range' 1 (paragraphChunk minLen text).chunks.length) ∧
    (∀ (maxSize : ℕ) (incl : Bool) (text : List Char),
      ordersOf (hierarchyChunk maxSize incl text) =
        List.range' 1 (hierarchyChunk maxSize incl text).chunks.length) ∧
    (∀ (cs ov : ℕ) (seps : List (List Char)) (text : List Char),
      ordersOf (recursiveChunk cs ov seps text) =
        List.range' 1 (recursiveChunk cs ov seps text).chunks.length) ∧
    (∀ (o : List (List Char) → Except (List Char) (List (List ℝ))) (thr : ℝ)
        (text : List Char), (sentencesOf text).length ≤ 1 →
      ordersOf (semanticChunk o thr text) =
        List.range' 1 (semanticChunk o thr text).chunks.length) ∧
    (∀ (o : List (List Char) → Except (List Char) (List (List ℝ))) (thr : ℝ)
        (text : List Char) (embs : List (List ℝ)),
        batchEmbed o (sentencesOf text) = .ok embs →
      ordersOf (semanticChunk o thr text) =
        List.range' 1 (semanticChunk o thr text).chunks.length) ∧
    (∀ (o : List (List Char) → Except (List Char) (List (List ℝ))) (thr : ℝ)
        (text e : List Char),
        2 ≤ (sentencesOf text).length →
        batchEmbed o (sentencesOf text) = .error e →
      ordersOf (semanticChunk o thr text) = [0]) := by
  refine ⟨?_, ?_, ?_, ?_, ?_, ?_, ?_⟩
  · intro spc text _
    exact ordersOf_mkChunks _ _
  · intro minLen text
    exact ordersOf_mkChunks _ _
  · intro maxSize incl text
    exact ordersOf_mkChunks _ _
  · intro cs ov seps text
    exact ordersOf_mkChunks _ _
  · intro o thr text hlen
    unfold semanticChunk
    cases hs : sentencesOf text with
    | nil => simp [semanticCore, ordersOf]
    | cons s0 rest =>
      cases rest with
      | nil =>
        simp [semanticCore, ordersOf, List.range']
      | cons s1 srest =>
        rw [hs] at hlen
        simp at hlen
  · intro o thr text embs hok
    unfold semanticChunk
    cases hs : sentencesOf text with
    | nil => simp [semanticCore, ordersOf]
    | cons s0 rest =>
      cases rest with
      | nil =>
        simp [semanticCore, ordersOf, List.range']
      | cons s1 srest =>
        rw [hs] at hok
        simp only [semanticCore, hok]
        exact ordersOf_mkChunks _ _
  · intro o thr text e hlen herr
    unfold semanticChunk
    cases hs : sentencesOf text with
    | nil => rw [hs] at hlen; simp at hlen
    | cons s0 rest =>
      cases rest with
      | nil => rw [hs] at hlen; simp at hlen
      | cons s1 srest =>
        rw [hs] at herr
        simp [semanticCore, herr, ordersOf]

/-- Witness for C2 amended: the sentence part at group size 1, the semantic
single-sentence part, the semantic successful-embedding part at a unit-vector
oracle, and the semantic failure part at a concrete failing oracle. -/
theorem c2_witness :
    (1 ≤ 1) ∧
    ordersOf (sentenceChunk 1 "A. B.".data) =
      List.range' 1 (sentenceChunk 1 "A. B.".data).chunks.length ∧
    (sentencesOf "Hello.".data).length ≤ 1 ∧
    ordersOf (semanticChunk (fun _ => Except.ok []) 0 "Hello.".data) =
      List.range' 1
        (semanticChunk (fun _ => Except.ok []) 0 "Hello.".data).chunks.length ∧
    batchEmbed (fun _ => Except.ok [[(1 : ℝ)], [(1 : ℝ)]])
      (sentencesOf "A. B.".data) = .ok [[(1 : ℝ)], [(1 : ℝ)]] ∧
    ordersOf (semanticChunk (fun _ => Except.ok [[(1 : ℝ)], [(1 : ℝ)]])
        0 "A. B.".data) =
      List.range' 1 (semanticChunk (fun _ => Except.ok [[(1 : ℝ)], [(1 : ℝ)]])
        0 "A. B.".data).chunks.length ∧
    2 ≤ (sentencesOf "A. B.".data).length ∧
    batchEmbed (failOracle "x".data) (sentencesOf "A. B.".data) = .error "x".data ∧
    ordersOf (semanticChunk (failOracle "x".data) 0 "A. B.".data) = [0] := by
  have h1 : sentencesOf "Hello.".data = ["Hello.".data] := by
    simp [sentencesOf, sentSplit, sentSplitAux, stripWs, isWs, isSentEnd, headIsWs]
  have h2 : sentencesOf "A. B.".data = ["A.".data, "B.".data] := by
    simp [sentencesOf, sentSplit, sentSplitAux, stripWs, isWs, isSentEnd, headIsWs]
  have hok : batchEmbed (fun _ => Except.ok [[(1 : ℝ)], [(1 : ℝ)]])
      (sentencesOf "A. B.".data) = .ok [[(1 : ℝ)], [(1 : ℝ)]] := by
    rw [h2]
    simp [batchEmbed, groupsOf, Except.map]
  have h3 : batchEmbed (failOracle "x".data) (sentencesOf "A. B.".data) =
      .error "x".data := by
    rw [h2]; simp [batchEmbed, groupsOf, failOracle, Except.map]
  exact ⟨by norm_num, c2_orders_amended.1 1 "A. B.".data (by norm_num),
    by rw [h1]; norm_num,
    c2_orders_amended.2.2.2.2.1 _ 0 "Hello.".data (by rw [h1]; norm_num),
    hok,
    c2_orders_amended.2.2.2.2.2.1 _ 0 "A. B.".data [[(1 : ℝ)], [(1 : ℝ)]] hok,
    by rw [h2]; norm_num, h3,
    c2_orders_amended.2.2.2.2.2.2 _ 0 _ _ (by rw [h2]; norm_num) h3⟩

/-- C10 amended: the sentence, paragraph, hierarchy and recursive chunkers
report `num_chunks` equal to the length of their chunk list on every input
and configuration, and so does the semantic chunker on its
empty/single-sentence path and on its successful-embedding path; the semantic
chunker's embedding-failure path instead returns one diagnostic chunk while
reporting `num_chunks = 0`. -/
theorem c10_numchunks_amended :
    (∀ (spc : ℕ) (text : List Char),
      (sentenceChunk spc text).numChunks = (sentenceChunk spc text).chunks.length) ∧
    (∀ (minLen : ℕ) (text : List Char),
      (paragraphChunk minLen text).numChunks = (paragraphChunk minLen text).chunks.length) ∧
    (∀ (maxSize : ℕ) (incl : Bool) (text : List Char),
      (hierarchyChunk maxSize incl text).numChunks =
        (hierarchyChunk maxSize incl text).chunks.length) ∧
    (∀ (cs ov : ℕ) (seps : List (List Char)) (text : List Char),
      (recursiveChunk cs ov seps text).numChunks =
        (recursiveChunk cs ov seps text).chunks.length) ∧
    (∀ (o : List (List Char) → Except (List Char) (List (List ℝ))) (thr : ℝ)
        (text : List Char), (sentencesOf text).length ≤ 1 →
      (semanticChunk o thr text).numChunks =
        (semanticChunk o thr text).chunks.length) ∧
    (∀ (o : List (List Char) → Except (List Char) (List (List ℝ))) (thr : ℝ)
        (text : List Char) (embs : List (List ℝ)),
        batchEmbed o (sentencesOf text) = .ok embs →
      (semanticChunk o thr text).numChunks =
        (semanticChunk o thr text).chunks.length) ∧
    (∀ (o : List (List Char) → Except (List Char) (List (List ℝ))) (thr : ℝ)
        (text e : List Char),
        2 ≤ (sentencesOf text).length →
        batchEmbed o (sentencesOf text) = .error e →
      (semanticChunk o thr text).numChunks = 0 ∧
      (semanticChunk o thr text).chunks.length = 1) := by
  refine ⟨fun _ _ => rfl, fun _ _ => rfl, fun _ _ _ => rfl, fun _ _ _ _ => rfl,
    ?_, ?_, ?_⟩
  · intro o thr text hlen
    unfold semanticChunk
    cases hs : sentencesOf text with
    | nil => rfl
    | cons s0 rest =>
      cases rest with
      | nil => rfl
      | cons s1 srest =>
        rw [hs] at hlen
        simp at hlen
  · intro o thr text embs hok
    unfold semanticChunk
    cases hs : sentencesOf text with
    | nil => rfl
    | cons s0 rest =>
      cases rest with
      | nil => rfl
      | cons s1 srest =>
        rw [hs] at hok
        simp [semanticCore, hok]
  · intro o thr text e hlen herr
    unfold semanticChunk
    cases hs : sentencesOf text with
    | nil => rw [hs] at hlen; simp at hlen
    | cons s0 rest =>
      cases rest with
      | nil => rw [hs] at hlen; simp at hlen
      | cons s1 srest =>
        rw [hs] at herr
        simp [semanticCore, herr]

/-- Witness for C10 amended: the semantic single-sentence conjunct, the
semantic successful-embedding conjunct at a unit-vector oracle, and the
semantic-failure conjunct at a concrete failing oracle. -/
theorem c10_witness :
    (sentencesOf "Hello.".data).length ≤ 1 ∧
    (semanticChunk (fun _ => Except.ok []) 0 "Hello.".data).numChunks =
      (semanticChunk (fun _ => Except.ok []) 0 "Hello.".data).chunks.length ∧
    batchEmbed (fun _ => Except.ok [[(1 : ℝ)], [(1 : ℝ)]])
      (sentencesOf "A. B.".data) = .ok [[(1 : ℝ)], [(1 : ℝ)]] ∧
    (semanticChunk (fun _ => Except.ok [[(1 : ℝ)], [(1 : ℝ)]])
        0 "A. B.".data).numChunks =
      (semanticChunk (fun _ => Except.ok [[(1 : ℝ)], [(1 : ℝ)]])
        0 "A. B.".data).chunks.length ∧
    2 ≤ (sentencesOf "A. B.".data).length ∧
    batchEmbed (failOracle "y".data) (sentencesOf "A. B.".data) = .error "y".data ∧
    (semanticChunk (failOracle "y".data) 0 "A. B.".data).numChunks = 0 ∧
    (semanticChunk (failOracle "y".data) 0 "A. B.".data).chunks.length = 1 := by
  have h1 : sentencesOf "Hello.".data = ["Hello.".data] := by
    simp [sentencesOf, sentSplit, sentSplitAux, stripWs, isWs, isSentEnd, headIsWs]
  have h2 : sentencesOf "A. B.".data = ["A.".data, "B.".data] := by
    simp [sentencesOf, sentSplit, sentSplitAux, stripWs, isWs, isSentEnd, headIsWs]
  have hok : batchEmbed (fun _ => Except.ok [[(1 : ℝ)], [(1 : ℝ)]])
      (sentencesOf "A. B.".data) = .ok [[(1 : ℝ)], [(1 : ℝ)]] := by
    rw [h2]
    simp [batchEmbed, groupsOf, Except.map]
  have h3 : batchEmbed (failOracle "y".data) (sentencesOf "A. B.".data) =
      .error "y".data := by
    rw [h2]; simp [batchEmbed, groupsOf, failOracle, Except.map]
  have h := c10_numchunks_amended.2.2.2.2.2.2 (failOracle "y".data) 0 "A. B.".data
    "y".data (by rw [h2]; norm_num) h3
  exact ⟨by rw [h1]; norm_num,
    c10_numchunks_amended.2.2.2.2.1 _ 0 "Hello.".data (by rw [h1]; norm_num),
    hok,
    c10_numchunks_amended.2.2.2.2.2.1 _ 0 "A. B.".data [[(1 : ℝ)], [(1 : ℝ)]] hok,
    by rw [h2]; norm_num, h3, h.1, h.2⟩

/-! ## C8 — recursive chunker overlap

On a text with no natural separators the splitter falls through to the
character split, and the merge loop works on single-character pieces: chunks
close at exactly `chunk_size` characters, and the backward overlap walk
(strict `< chunk_overlap`) seeds the next chunk with the previous chunk's
trailing `chunk_overlap - 1` characters — 19 for overlap 20, the claim's
"approximately-20 within separator-boundary slack". -/

/-- A text as single-character pieces. -/
def singles (l : List Char) : List (List Char) := l.map (fun c => [c])

/-- The trailing `n` elements. -/
def tailN (n : ℕ) (l : List α) : List α := l.drop (l.length - n)

/-- Character-level view of the merge loop on single-character pieces: `u` is
the current chunk's accumulated text. -/
def goChar (cs ov : ℕ) (u : List Char) : List Char → List (List Char)
  | [] => if u = [] then [] else [u]
  | c :: rest =>
    if cs < u.length + 1 ∧ u ≠ [] then
      u :: goChar cs ov (tailN (min (ov - 1) u.length) u ++ [c]) rest
    else
      goChar cs ov (u ++ [c]) rest

theorem singles_append (a b : List Char) :
    singles (a ++ b) = singles a ++ singles b := by
  simp [singles]

theorem singles_length (a : List Char) : (singles a).length = a.length := by
  simp [singles]

theorem singles_eq_nil_iff (a : List Char) : singles a = [] ↔ a = [] := by
  simp [singles]

theorem joinSep_nil_singles (u : List Char) : joinSep [] (singles u) = u := by
  induction u with
  | nil => rfl
  | cons c u ih =>
    cases u with
    | nil => rfl
    | cons d u' => simp only [singles, List.map] at ih ⊢; simp [joinSep, ih]

theorem singles_cons (c : Char) (w : List Char) :
    singles (c :: w) = [c] :: singles w := rfl

/-- The backward overlap walk on single-character pieces collects exactly
`min (ov - 1) |w|` pieces (walk input is the reversed chunk). -/
theorem overlapWalkAux_singles (ov : ℕ) :
    ∀ (w : List Char) (acc : List (List Char)) (olen : ℕ),
      overlapWalkAux ov (singles w) acc olen =
        (singles ((w.take (min (ov - 1 - olen) w.length)).reverse) ++ acc,
          olen + min (ov - 1 - olen) w.length) := by
  intro w
  induction w with
  | nil => intro acc olen; simp [singles, overlapWalkAux]
  | cons c w' ih =>
    intro acc olen
    rw [singles_cons]
    simp only [overlapWalkAux, List.length_singleton]
    by_cases h : olen + 1 < ov
    · rw [if_pos h, ih ([c] :: acc) (olen + 1)]
      have hmin : min (ov - 1 - olen) (c :: w').length =
          min (ov - 1 - (olen + 1)) w'.length + 1 := by
        simp only [List.length_cons]; omega
      rw [hmin, List.take_succ_cons, List.reverse_cons, singles_append]
      rw [Prod.mk.injEq]
      constructor
      · simp [singles]
      · omega
    · rw [if_neg h]
      have hmin : min (ov - 1 - olen) (c :: w').length = 0 := by
        simp only [List.length_cons]; omega
      rw [hmin]
      simp [singles]

theorem overlapTail_singles (ov : ℕ) (u : List Char) :
    overlapTail ov (singles u) =
      (singles (tailN (min (ov - 1) u.length) u), min (ov - 1) u.length) := by
  unfold overlapTail
  have hrev : (singles u).reverse = singles u.reverse := by simp [singles]
  rw [hrev, overlapWalkAux_singles]
  rw [Prod.mk.injEq]
  constructor
  · rw [List.length_reverse, List.take_reverse, List.reverse_reverse, List.append_nil]
    simp only [Nat.sub_zero, tailN]
  · rw [List.length_reverse]
    omega

theorem goChar_cons (cs ov : ℕ) (u : List Char) (c : Char) (rest : List Char) :
    goChar cs ov u (c :: rest) =
      if cs < u.length + 1 ∧ u ≠ [] then
        u :: goChar cs ov (tailN (min (ov - 1) u.length) u ++ [c]) rest
      else
        goChar cs ov (u ++ [c]) rest := rfl

/-- The merge loop on single-character pieces with the empty join separator
is the character-level recursion. -/
theorem mergeGo_singles (cs ov : ℕ) :
    ∀ (t u : List Char) (acc : List (List Char)),
      mergeGo cs ov [] (singles t) (singles u) u.length acc =
        acc ++ goChar cs ov u t := by
  intro t
  induction t with
  | nil =>
    intro u acc
    simp only [singles, List.map, mergeGo, goChar]
    by_cases h : u = []
    · simp [h, singles]
    · rw [if_neg (by simpa [singles_eq_nil_iff] using h), if_neg h]
      rw [show (List.map (fun c => [c]) u) = singles u from rfl, joinSep_nil_singles]
  | cons c rest ih =>
    intro u acc
    rw [singles_cons]
    simp only [mergeGo, List.length_singleton, List.length_nil, Nat.add_zero]
    rw [goChar_cons]
    by_cases hov : cs < u.length + 1 ∧ u ≠ []
    · have hne : singles u ≠ [] := by
        simpa [singles_eq_nil_iff] using hov.2
      rw [if_pos hov.1, if_neg hne, if_pos hov]
      rw [overlapTail_singles]
      simp only []
      have harg : singles (tailN (min (ov - 1) u.length) u) ++ [[c]] =
          singles (tailN (min (ov - 1) u.length) u ++ [c]) := by
        simp [singles]
      have hlen2 : min (ov - 1) u.length + 1 =
          (tailN (min (ov - 1) u.length) u ++ [c]).length := by
        simp only [List.length_append, List.length_singleton, tailN, List.length_drop]
        omega
      rw [harg, hlen2, ih, joinSep_nil_singles]
      simp
    · rw [Decidable.not_and_iff_or_not] at hov
      have hstep : mergeGo cs ov [] (singles rest) (singles u ++ [[c]])
            (u.length + 1) acc = acc ++ goChar cs ov (u ++ [c]) rest := by
        have harg : singles u ++ [[c]] = singles (u ++ [c]) := by simp [singles]
        have hlen2 : u.length + 1 = (u ++ [c]).length := by simp
        rw [harg, hlen2, ih]
      by_cases hlt : cs < u.length + 1
      · have hu : u = [] := by
          rcases hov with h | h
          · exact absurd hlt h
          · exact Decidable.not_not.mp h
        rw [if_pos hlt, if_pos (by simp [hu, singles]), if_neg (by simp [hu])]
        exact hstep
      · rw [if_neg hlt, if_neg (by intro hcon; exact hlt hcon.1)]
        exact hstep

theorem goChar_ne_nil (cs ov : ℕ) :
    ∀ (t u : List Char), u ≠ [] → goChar cs ov u t ≠ [] := by
  intro t
  induction t with
  | nil => intro u hu; simp [goChar, hu]
  | cons c rest ih =>
    intro u hu
    rw [goChar_cons]
    by_cases h : cs < u.length + 1 ∧ u ≠ []
    · rw [if_pos h]; simp
    · rw [if_neg h]; exact ih (u ++ [c]) (by simp)

/-- Every chunk list produced from a current chunk `u` starts with a chunk
having `u` as a prefix: characters are only ever appended. -/
theorem goChar_head (cs ov : ℕ) :
    ∀ (t u h : List Char) (l' : List (List Char)),
      goChar cs ov u t = h :: l' → u.length ≤ h.length ∧ h.take u.length = u := by
  intro t
  induction t with
  | nil =>
    intro u h l' heq
    by_cases hu : u = []
    · simp [goChar, hu] at heq
    · simp only [goChar, if_neg hu] at heq
      cases heq
      exact ⟨le_refl _, List.take_length _⟩
  | cons c rest ih =>
    intro u h l' heq
    rw [goChar_cons] at heq
    by_cases hcond : cs < u.length + 1 ∧ u ≠ []
    · rw [if_pos hcond] at heq
      cases heq
      exact ⟨le_refl _, List.take_length _⟩
    · rw [if_neg hcond] at heq
      obtain ⟨hlen, htake⟩ := ih (u ++ [c]) h l' heq
      constructor
      · simp at hlen; omega
      · have : h.take u.length = (h.take (u ++ [c]).length).take u.length := by
          rw [List.take_take]
          congr 1
          simp
        rw [this, htake]
        simp [List.take_append_of_le_length]

/-- The adjacent-overlap chain: every chunk after the first starts with the
trailing `min (ov-1) cs` characters of its predecessor. -/
theorem goChar_chain (cs ov : ℕ) (hcs : 1 ≤ cs) (hov : ov ≤ cs) :
    ∀ (t u : List Char), u.length ≤ cs →
      List.Chain' (fun a b => b.take (min (ov - 1) cs) = tailN (min (ov - 1) cs) a)
        (goChar cs ov u t) := by
  intro t
  induction t with
  | nil =>
    intro u _
    by_cases hu : u = [] <;> simp [goChar, hu]
  | cons c rest ih =>
    intro u hle
    rw [goChar_cons]
    by_cases hcond : cs < u.length + 1 ∧ u ≠ []
    · rw [if_pos hcond]
      have hulen : u.length = cs := by omega
      have hk : min (ov - 1) u.length = min (ov - 1) cs := by rw [hulen]
      set k := min (ov - 1) cs with hkdef
      have hk_le : k ≤ cs := by omega
      have htail_len : (tailN k u).length = k := by
        simp only [tailN, List.length_drop]
        omega
      have hnewlen : (tailN (min (ov - 1) u.length) u ++ [c]).length ≤ cs := by
        rw [hk]
        simp only [List.length_append, List.length_singleton, htail_len]
        omega
      have hchain := ih (tailN (min (ov - 1) u.length) u ++ [c]) hnewlen
      cases hl : goChar cs ov (tailN (min (ov - 1) u.length) u ++ [c]) rest with
      | nil => simp [hl]
      | cons h l' =>
        rw [hl] at hchain
        refine List.Chain'.cons ?_ hchain
        obtain ⟨hhlen, hhtake⟩ := goChar_head cs ov rest _ h l' hl
        have harglen : (tailN (min (ov - 1) u.length) u ++ [c]).length = k + 1 := by
          rw [hk]
          simp only [List.length_append, List.length_singleton, htail_len]
        rw [harglen] at hhlen hhtake
        have : h.take k = ((h.take (k + 1)).take k) := by
          rw [List.take_take]
          congr 1
          omega
        rw [this, hhtake, hk] at *
        rw [List.take_append_of_le_length (by rw [htail_len])]
        rw [List.take_of_length_le (by rw [htail_len])]
    · rw [if_neg hcond]
      have : (u ++ [c]).length ≤ cs := by
        simp only [List.length_append, List.length_singleton]
        by_cases h1 : cs < u.length + 1
        · have hu : u = [] := by tauto
          simp [hu]; omega
        · omega
      exact ih (u ++ [c]) this

/-- At least two chunks are produced when the available text exceeds one
chunk's capacity. -/
theorem goChar_two (cs ov : ℕ) (hcs : 1 ≤ cs) :
    ∀ (t u : List Char), u.length ≤ cs → cs < u.length + t.length →
      2 ≤ (goChar cs ov u t).length := by
  intro t
  induction t with
  | nil =>
    intro u hle hgt
    simp at hgt
    omega
  | cons c rest ih =>
    intro u hle hgt
    rw [goChar_cons]
    by_cases hcond : cs < u.length + 1 ∧ u ≠ []
    · rw [if_pos hcond]
      have hne := goChar_ne_nil cs ov rest (tailN (min (ov - 1) u.length) u ++ [c]) (by simp)
      cases hl : goChar cs ov (tailN (min (ov - 1) u.length) u ++ [c]) rest with
      | nil => exact absurd hl hne
      | cons h l' => simp
    · rw [if_neg hcond]
      apply ih (u ++ [c])
      · simp only [List.length_append, List.length_singleton]
        by_cases h1 : cs < u.length + 1
        · have hu : u = [] := by tauto
          simp [hu]; omega
        · omega
      · simp only [List.length_append, List.length_singleton, List.length_cons] at hgt ⊢
        omega

theorem splitOnSep_not_mem (c : Char) (ss : List Char) :
    ∀ text : List Char, c ∉ text → splitOnSep (c :: ss) text = [text] := by
  intro text
  induction text with
  | nil => intro _; rw [splitOnSep]; simp
  | cons d rest ih =>
    intro h
    have hcd : ¬ (c = d) := by
      intro he
      exact h (by rw [he]; exact List.mem_cons_self _ _)
    have hpre : (c :: ss).isPrefixOf (d :: rest) = false := by
      simp [List.isPrefixOf, hcd]
    have hrest : c ∉ rest := fun hc => h (List.mem_cons_of_mem _ hc)
    rw [splitOnSep]
    simp [hpre, ih hrest]

theorem containsSub_not_mem (c : Char) (ss text : List Char) (h : c ∉ text) :
    containsSub (c :: ss) text = false := by
  unfold containsSub
  rw [splitOnSep_not_mem c ss text h]
  simp

/-- On a text containing neither newlines nor spaces the separator scan falls
through to the empty separator. -/
theorem chooseSep_sepFree (text : List Char)
    (h : ∀ c ∈ text, c ≠ '\n' ∧ c ≠ ' ') :
    chooseSep text defaultSeps = ([], []) := by
  have hnl : '\n' ∉ text := fun hc => (h _ hc).1 rfl
  have hsp : ' ' ∉ text := fun hc => (h _ hc).2 rfl
  have h1 : containsSub "\n\n".data text = false := containsSub_not_mem _ _ _ hnl
  have h2 : containsSub "\n".data text = false := containsSub_not_mem _ _ _ hnl
  have h3 : containsSub " ".data text = false := containsSub_not_mem _ _ _ hsp
  unfold defaultSeps
  rw [chooseSep, if_neg (by simp), if_neg (by simp [h1]), if_neg (by simp)]
  rw [chooseSep, if_neg (by simp), if_neg (by simp [h2]), if_neg (by simp)]
  rw [chooseSep, if_neg (by simp), if_neg (by simp [h3]), if_neg (by simp)]
  rw [chooseSep, if_pos rfl]

theorem flatMap_id_of (f : List Char → List (List Char)) :
    ∀ l : List (List Char), (∀ s ∈ l, f s = [s]) → l.flatMap f = l := by
  intro l
  induction l with
  | nil => intro _; simp
  | cons s rest ih =>
    intro h
    simp only [List.flatMap_cons]
    rw [h s (List.mem_cons_self _ _), ih (fun x hx => h x (List.mem_cons_of_mem _ hx))]
    rfl

/-- On a separator-free text with `chunk_size ≥ 2` the recursive splitter
degenerates to the character split. -/
theorem splitTextRec_sepFree (cs : ℕ) (hcs : 2 ≤ cs) (text : List Char)
    (h : ∀ c ∈ text, c ≠ '\n' ∧ c ≠ ' ') :
    splitTextRec cs defaultSeps text = singles text := by
  rw [splitTextRec, dif_neg (by unfold defaultSeps; simp)]
  simp only [chooseSep_sepFree text h]
  rw [show singles text = text.map (fun c => [c]) from rfl]
  apply flatMap_id_of
  intro s hs
  obtain ⟨c, _, rfl⟩ := List.mem_map.mp hs
  rw [if_pos (by simp; omega)]

/-- C8: for `chunk_size = 100`, `chunk_overlap = 20` on a 500-character text
with no natural separators, the splitter produces single characters and the
merge closes chunks at exactly 100 characters, seeding each subsequent chunk
with the previous chunk's trailing 19 characters (the overlap walk's strict
bound collects `overlap - 1` characters — the claim's "approximately-20
within separator-boundary slack"); at least two chunks arise, so the
property is not vacuous. -/
theorem c8_recursive_overlap (text : List Char)
    (hlen : text.length = 500)
    (hsep : ∀ c ∈ text, c ≠ '\n' ∧ c ≠ ' ') :
    List.Chain' (fun a b => b.take 19 = tailN 19 a)
      ((recursiveChunk 100 20 defaultSeps text).chunks.map Chunk.content) ∧
    2 ≤ (recursiveChunk 100 20 defaultSeps text).chunks.length := by
  have hsplit : splitTextRec 100 defaultSeps text = singles text :=
    splitTextRec_sepFree 100 (by norm_num) text hsep
  have hmerge : mergeSplits 100 20 [] (singles text) = goChar 100 20 [] text := by
    unfold mergeSplits
    have := mergeGo_singles 100 20 text [] []
    simpa [singles] using this
  have hcontents : (recursiveChunk 100 20 defaultSeps text).chunks =
      mkChunks (goChar 100 20 [] text) := by
    unfold recursiveChunk
    simp only [hsplit, hmerge]
  rw [hcontents]
  constructor
  · rw [show mkChunks (goChar 100 20 [] text) =
        mkChunksFrom 1 (goChar 100 20 [] text) from rfl]
    rw [mkChunksFrom_contents]
    have h19 : min (20 - 1) 100 = 19 := by norm_num
    have := goChar_chain 100 20 (by norm_num) (by norm_num) text [] (by simp)
    rwa [h19] at this
  · rw [show mkChunks (goChar 100 20 [] text) =
        mkChunksFrom 1 (goChar 100 20 [] text) from rfl]
    rw [mkChunksFrom_length]
    exact goChar_two 100 20 (by norm_num) text []
      (by simp) (by rw [List.length_nil, hlen]; norm_num)

/-- Witness for C8: five hundred letters `a`. -/
theorem c8_witness :
    (List.replicate 500 'a').length = 500 ∧
    (∀ c ∈ List.replicate 500 'a', c ≠ '\n' ∧ c ≠ ' ') ∧
    (List.Chain' (fun a b => b.take 19 = tailN 19 a)
      ((recursiveChunk 100 20 defaultSeps (List.replicate 500 'a')).chunks.map
        Chunk.content) ∧
    2 ≤ (recursiveChunk 100 20 defaultSeps (List.replicate 500 'a')).chunks.length) := by
  have h1 : (List.replicate 500 'a').length = 500 := List.length_replicate 500 'a'
  have h2 : ∀ c ∈ List.replicate 500 'a', c ≠ '\n' ∧ c ≠ ' ' := by
    intro c hc
    rw [List.eq_of_mem_replicate hc]
    exact ⟨by decide, by decide⟩
  exact ⟨h1, h2, c8_recursive_overlap (List.replicate 500 'a') h1 h2⟩

/-! ## C5 — reconstruction modulo whitespace

"Concatenating chunk contents reconstructs the source text modulo whitespace
normalization" is formalised as: the concatenated contents and the source
text agree after erasing every whitespace character (`nw`).  The lemmas below
track non-whitespace characters through the splitters, strippers, joiners
and groupers of the chunkers. -/

theorem nw_append (a b : List Char) : nw (a ++ b) = nw a ++ nw b := by
  simp [nw]

theorem nw_reverse (a : List Char) : nw a.reverse = (nw a).reverse := by
  simp [nw, List.filter_reverse]

theorem nw_dropWhile_ws (l : List Char) : nw (l.dropWhile isWs) = nw l := by
  induction l with
  | nil => rfl
  | cons c rest ih =>
    by_cases h : isWs c
    · rw [List.dropWhile_cons, if_pos h, ih]
      simp [nw, h]
    · rw [List.dropWhile_cons, if_neg h]

theorem nw_stripWs (l : List Char) : nw (stripWs l) = nw l := by
  unfold stripWs
  rw [nw_reverse, nw_dropWhile_ws, nw_reverse, List.reverse_reverse, nw_dropWhile_ws]

theorem nw_flatten (l : List (List Char)) : nw l.flatten = (l.map nw).flatten := by
  induction l with
  | nil => rfl
  | cons a rest ih => simp [nw_append, ih]

theorem nw_of_all_ws (sep : List Char) (h : ∀ c ∈ sep, isWs c) : nw sep = [] := by
  induction sep with
  | nil => rfl
  | cons c rest ih =>
    have hc := h c (List.mem_cons_self _ _)
    simp only [nw, List.filter_cons, hc]
    exact ih (fun x hx => h x (List.mem_cons_of_mem _ hx))

theorem joinSep_nw_flatten (sep : List Char) (h : ∀ c ∈ sep, isWs c) :
    ∀ gs : List (List Char), nw (joinSep sep gs) = (gs.map nw).flatten := by
  intro gs
  induction gs with
  | nil => rfl
  | cons x rest ih =>
    cases rest with
    | nil => simp [joinSep]
    | cons y rest' =>
      simp only [joinSep, nw_append, nw_of_all_ws sep h, List.append_nil] at ih ⊢
      rw [ih]
      simp

/-- Dropping the elements a predicate rejects leaves the `nw`-flattening
unchanged whenever every rejected element is entirely whitespace-free after
erasure. -/
theorem flatten_map_nw_filter (p : List Char → Bool)
    (hp : ∀ x, p x = false → nw x = []) :
    ∀ l : List (List Char),
      ((l.filter p).map nw).flatten = (l.map nw).flatten := by
  intro l
  induction l with
  | nil => rfl
  | cons x rest ih =>
    by_cases h : p x
    · simp [List.filter_cons, h, ih]
    · rw [Bool.not_eq_true] at h
      simp [List.filter_cons, h, hp x h, ih]

theorem flatten_map_nw_stripWs (l : List (List Char)) :
    ((l.map stripWs).map nw).flatten = (l.map nw).flatten := by
  induction l with
  | nil => rfl
  | cons x rest ih =>
    simp only [List.map_cons, List.flatten_cons, nw_stripWs]
    rw [ih]

/-- `"".join` of the singleton merge is plain concatenation. -/
theorem joinSep_nil_flatten (l : List (List Char)) : joinSep [] l = l.flatten := by
  induction l with
  | nil => rfl
  | cons x rest ih =>
    cases rest with
    | nil => simp [joinSep]
    | cons y rest' => simp [joinSep, ih]

theorem groupsOf_flatten {α : Type} (n : ℕ) (hn : 1 ≤ n) :
    ∀ l : List α, (groupsOf n l).flatten = l := by
  have H : ∀ (len : ℕ) (l : List α), l.length ≤ len → (groupsOf n l).flatten = l := by
    intro len
    induction len with
    | zero =>
      intro l hl
      cases l with
      | nil =>
        cases n with
        | zero => omega
        | succ m => simp [groupsOf]
      | cons a rest => simp at hl
    | succ k ih =>
      intro l hl
      cases l with
      | nil =>
        cases n with
        | zero => omega
        | succ m => simp [groupsOf]
      | cons a rest =>
        cases n with
        | zero => omega
        | succ m =>
          rw [groupsOf]
          simp only [List.flatten_cons]
          rw [ih _ (by simp only [List.length_drop, List.length_cons] at hl ⊢; omega)]
          exact List.take_append_drop _ _
  intro l
  exact H l.length l (le_refl _)

theorem nw_cons (c : Char) (l : List Char) : nw (c :: l) = nw [c] ++ nw l := by
  by_cases h : isWs c <;> simp [nw, h]

theorem sentSplitAux_nw :
    ∀ (len : ℕ) (l acc : List Char), l.length ≤ len →
      ((sentSplitAux acc l).map nw).flatten = nw acc.reverse ++ nw l := by
  intro len
  induction len with
  | zero =>
    intro l acc hl
    cases l with
    | nil => simp [sentSplitAux, nw]
    | cons c rest => simp at hl
  | succ k ih =>
    intro l acc hl
    cases l with
    | nil => simp [sentSplitAux, nw]
    | cons c rest =>
      rw [sentSplitAux]
      by_cases h : isSentEnd c && headIsWs rest
      · rw [if_pos h]
        simp only [List.map_cons, List.flatten_cons]
        rw [ih (rest.dropWhile isWs) []
          (le_trans (length_dropWhile_le isWs rest)
            (by simp only [List.length_cons] at hl; omega))]
        rw [nw_dropWhile_ws, List.reverse_cons, nw_append, nw_cons c rest]
        simp [nw]
      · rw [if_neg h]
        rw [ih rest (c :: acc) (by simp only [List.length_cons] at hl; omega)]
        rw [List.reverse_cons, nw_append, nw_cons c rest]
        simp

/-- Non-whitespace characters are preserved by sentence extraction. -/
theorem nw_sentencesOf (text : List Char) :
    ((sentencesOf text).map nw).flatten = nw text := by
  unfold sentencesOf
  rw [flatten_map_nw_filter _ (by intro x hx; simp at hx; simp [hx, nw])]
  rw [flatten_map_nw_stripWs]
  have := sentSplitAux_nw text.length text [] (le_refl _)
  simpa [sentSplit, nw] using this

theorem eq_append_drop_of_isPrefixOf :
    ∀ (sep l : List Char), sep.isPrefixOf l = true → l = sep ++ l.drop sep.length := by
  intro sep
  induction sep with
  | nil => intro l _; simp
  | cons s ss ih =>
    intro l h
    cases l with
    | nil => simp [List.isPrefixOf] at h
    | cons d rest =>
      simp only [List.isPrefixOf, Bool.and_eq_true, beq_iff_eq] at h
      obtain ⟨rfl, h2⟩ := h
      simp only [List.cons_append, List.length_cons, List.drop_succ_cons, List.cons.injEq,
        true_and]
      exact ih rest h2

theorem splitOnSep_ne_nil (sep text : List Char) : splitOnSep sep text ≠ [] := by
  rw [splitOnSep.eq_def]
  by_cases hs : sep = []
  · simp [hs]
  · rw [dif_neg hs]
    cases text with
    | nil => simp
    | cons c rest =>
      by_cases hp : sep.isPrefixOf (c :: rest)
      · simp [hp]
      · simp only [hp]
        cases splitOnSep sep rest <;> simp

/-- Non-whitespace characters are preserved by splitting on an all-whitespace
separator. -/
theorem splitOnSep_nw (sep : List Char) (hsep : sep ≠ [])
    (hws : ∀ c ∈ sep, isWs c) :
    ∀ (len : ℕ) (text : List Char), text.length ≤ len →
      ((splitOnSep sep text).map nw).flatten = nw text := by
  intro len
  induction len with
  | zero =>
    intro text hl
    cases text with
    | nil => rw [splitOnSep, dif_neg hsep]; simp [nw]
    | cons c rest => simp at hl
  | succ k ih =>
    intro text hl
    cases text with
    | nil => rw [splitOnSep, dif_neg hsep]; simp [nw]
    | cons c rest =>
      rw [splitOnSep, dif_neg hsep]
      by_cases hp : sep.isPrefixOf (c :: rest)
      · simp only [hp, if_pos]
        have hdec := eq_append_drop_of_isPrefixOf sep (c :: rest) hp
        have hslen : 1 ≤ sep.length := by
          cases sep with
          | nil => exact absurd rfl hsep
          | cons _ _ => simp
        have hlen2 : ((c :: rest).drop sep.length).length ≤ k := by
          simp only [List.length_drop, List.length_cons] at *
          omega
        simp only [List.map_cons, List.flatten_cons]
        rw [ih _ hlen2]
        conv_rhs => rw [hdec]
        rw [nw_append, nw_of_all_ws sep hws]
        simp [nw]
      · rw [if_neg hp]
        have hrest := ih rest (by simp only [List.length_cons] at hl; omega)
        cases hsp : splitOnSep sep rest with
        | nil => exact absurd hsp (splitOnSep_ne_nil sep rest)
        | cons p ps =>
          rw [hsp] at hrest
          simp only [hsp, List.map_cons, List.flatten_cons] at hrest ⊢
          rw [nw_cons c p, nw_cons c rest]
          simp only [List.append_assoc]
          rw [hrest]

/-- The paragraph accumulator partitions its input. -/
theorem paraGroups_flatten (m : ℕ) :
    ∀ (ps cur : List (List Char)) (curLen : ℕ),
      (paraGroups m ps cur curLen).flatten = cur ++ ps := by
  intro ps
  induction ps with
  | nil =>
    intro cur curLen
    by_cases h : cur = [] <;> simp [paraGroups, h]
  | cons p rest ih =>
    intro cur curLen
    simp only [paraGroups]
    by_cases h : m ≤ curLen + p.length
    · rw [if_pos h]
      simp [ih]
    · rw [if_neg h]
      simp [ih]

/-- The semantic grouping partitions its input sentences. -/
theorem groupWalk_flatten (thr : ℝ) :
    ∀ (pairs : List (ℝ × List Char)) (cur : List (List Char)),
      (groupWalk thr cur pairs).flatten = cur ++ pairs.map Prod.snd := by
  intro pairs
  induction pairs with
  | nil =>
    intro cur
    by_cases h : cur = [] <;> simp [groupWalk, h]
  | cons pr rest ih =>
    intro cur
    obtain ⟨d, s⟩ := pr
    simp only [groupWalk]
    by_cases h : thr < d
    · rw [if_pos h]
      simp [ih]
    · rw [if_neg h]
      simp [ih]

/-- Flattening whitespace-joined groups erases to the erasure of the
flattened grouping. -/
theorem flatten_map_nw_joined (sep : List Char) (hws : ∀ c ∈ sep, isWs c) :
    ∀ groups : List (List (List Char)),
      ((groups.map (joinSep sep)).map nw).flatten = (groups.flatten.map nw).flatten := by
  intro groups
  induction groups with
  | nil => rfl
  | cons g rest ih =>
    simp only [List.map_cons, List.flatten_cons, List.map_append, List.flatten_append]
    rw [joinSep_nw_flatten sep hws g, ih]

theorem chooseSep_mem (text : List Char) :
    ∀ seps : List (List Char),
      ((chooseSep text seps).1 = [] ∨ (chooseSep text seps).1 ∈ seps) ∧
      (∀ s ∈ (chooseSep text seps).2, s ∈ seps) := by
  intro seps
  induction seps with
  | nil => simp [chooseSep]
  | cons s rest ih =>
    by_cases hs : s = []
    · simp [chooseSep, hs]
    · by_cases hc : containsSub s text
      · refine ⟨?_, ?_⟩
        · right
          simp [chooseSep, hs, hc]
        · intro x hx
          simp only [chooseSep, if_neg hs, if_pos hc] at hx
          exact List.mem_cons_of_mem s hx
      · by_cases hr : rest = []
        · simp [chooseSep, hs, hc, hr]
        · obtain ⟨ih1, ih2⟩ := ih
          simp only [chooseSep, if_neg hs, if_neg hc, if_neg hr]
          exact ⟨ih1.imp id (List.mem_cons_of_mem s),
            fun x hx => List.mem_cons_of_mem s (ih2 x hx)⟩

theorem flatten_map_nw_singles (text : List Char) :
    ((singles text).map nw).flatten = nw text := by
  induction text with
  | nil => rfl
  | cons c rest ih =>
    rw [singles_cons]
    simp only [List.map_cons, List.flatten_cons]
    rw [ih, nw_cons c rest]

theorem flatten_map_nw_flatMap (f : List Char → List (List Char)) :
    ∀ l : List (List Char), (∀ s ∈ l, ((f s).map nw).flatten = nw s) →
      ((l.flatMap f).map nw).flatten = (l.map nw).flatten := by
  intro l
  induction l with
  | nil => intro _; rfl
  | cons s rest ih =>
    intro h
    simp only [List.flatMap_cons, List.map_append, List.flatten_append,
      List.map_cons, List.flatten_cons]
    rw [h s (List.mem_cons_self _ _), ih (fun x hx => h x (List.mem_cons_of_mem _ hx))]

/-- Non-whitespace characters are preserved by the recursive splitter when
every separator consists of whitespace (as the default priority list does).
-/
theorem splitTextRec_nw (cs : ℕ) :
    ∀ (n : ℕ) (seps : List (List Char)) (text : List Char),
      seps.length ≤ n →
      (∀ s ∈ seps, ∀ c ∈ s, isWs c) →
      ((splitTextRec cs seps text).map nw).flatten = nw text := by
  intro n
  induction n with
  | zero =>
    intro seps text hn _
    have hnil : seps = [] := List.length_eq_zero.mp (Nat.le_zero.mp hn)
    rw [hnil, splitTextRec, dif_pos rfl]
    simp
  | succ k ih =>
    intro seps text hn hws
    by_cases hnil : seps = []
    · rw [hnil, splitTextRec, dif_pos rfl]
      simp
    · rw [splitTextRec, dif_neg hnil]
      have hsnd := chooseSep_snd_length text seps hnil
      have hmem := chooseSep_mem text seps
      have hpiece : ∀ s ∈ (if (chooseSep text seps).1 = []
            then text.map (fun c => [c])
            else splitOnSep (chooseSep text seps).1 text),
          (((if s.length < cs then [s]
             else if hn2 : (chooseSep text seps).2 = [] then [s]
             else splitTextRec cs (chooseSep text seps).2 s).map nw).flatten) = nw s := by
        intro s _
        by_cases h1 : s.length < cs
        · rw [if_pos h1]; simp
        · rw [if_neg h1]
          by_cases h2 : (chooseSep text seps).2 = []
          · rw [dif_pos h2]; simp
          · rw [dif_neg h2]
            apply ih (chooseSep text seps).2 s (by omega)
            intro x hx
            exact hws x (hmem.2 x hx)
      rw [flatten_map_nw_flatMap _ _ hpiece]
      by_cases hfst : (chooseSep text seps).1 = []
      · rw [if_pos hfst]
        exact flatten_map_nw_singles text
      · rw [if_neg hfst]
        have hsepmem : (chooseSep text seps).1 ∈ seps := hmem.1.resolve_left hfst
        exact splitOnSep_nw (chooseSep text seps).1 hfst
          (hws _ hsepmem) text.length text (le_refl _)

theorem overlapTail_zero (cur : List (List Char)) : overlapTail 0 cur = ([], 0) := by
  unfold overlapTail
  cases hc : cur.reverse with
  | nil => rfl
  | cons s rest => simp [overlapWalkAux]

/-- With zero overlap and the empty join separator the merge is a pure
partition: concatenating the produced chunks is concatenating the pieces. -/
theorem mergeGo_zero_flatten (cs : ℕ) :
    ∀ (splits cur : List (List Char)) (curLen : ℕ) (acc : List (List Char)),
      (mergeGo cs 0 [] splits cur curLen acc).flatten =
        acc.flatten ++ cur.flatten ++ splits.flatten := by
  intro splits
  induction splits with
  | nil =>
    intro cur curLen acc
    by_cases h : cur = []
    · simp [mergeGo, h]
    · simp [mergeGo, h, joinSep_nil_flatten]
  | cons s rest ih =>
    intro cur curLen acc
    simp only [mergeGo, List.length_nil, Nat.add_zero]
    by_cases hov : cs < curLen + s.length
    · rw [if_pos hov]
      by_cases hc : cur = []
      · rw [if_pos hc, ih]
        simp [hc]
      · rw [if_neg hc, overlapTail_zero, ih]
        simp [joinSep_nil_flatten]
    · rw [if_neg hov, ih]
      simp

theorem adjDists_length : ∀ l : List (List ℝ), (adjDists l).length = l.length - 1 := by
  intro l
  induction l with
  | nil => rfl
  | cons a rest ih =>
    cases rest with
    | nil => rfl
    | cons b rest' =>
      simp only [adjDists, List.length_cons] at ih ⊢
      omega

/-- C5 amended: concatenating chunk contents reconstructs the source text
modulo whitespace (equality after erasing all whitespace) for the sentence
chunker (positive group size), the paragraph chunker, the semantic chunker on
its empty/single-sentence path and on its successful-embedding path (with the
embedding capability returning one vector per sentence), and the recursive
chunker with zero overlap over the default separators.  The hierarchy chunker
(which drops heading lines), the recursive chunker with positive overlap
(which duplicates the overlap window) and the semantic chunker's
embedding-failure path (whose chunk is a diagnostic message) are excluded by
the counterexample. -/
theorem c5_reconstruction_amended :
    (∀ (spc : ℕ) (text : List Char), 1 ≤ spc →
      nw (catContents (sentenceChunk spc text)) = nw text) ∧
    (∀ (minLen : ℕ) (text : List Char),
      nw (catContents (paragraphChunk minLen text)) = nw text) ∧
    (∀ (o : List (List Char) → Except (List Char) (List (List ℝ))) (thr : ℝ)
        (text : List Char), (sentencesOf text).length ≤ 1 →
      nw (catContents (semanticChunk o thr text)) = nw text) ∧
    (∀ (o : List (List Char) → Except (List Char) (List (List ℝ))) (thr : ℝ)
        (text : List Char) (embs : List (List ℝ)),
        batchEmbed o (sentencesOf text) = .ok embs →
        embs.length = (sentencesOf text).length →
      nw (catContents (semanticChunk o thr text)) = nw text) ∧
    (∀ (cs : ℕ) (text : List Char),
      nw (catContents (recursiveChunk cs 0 defaultSeps text)) = nw text) := by
  have hws1 : ∀ c ∈ " ".data, isWs c = true := by decide
  have hws2 : ∀ c ∈ "\n\n".data, isWs c = true := by decide
  refine ⟨?_, ?_, ?_, ?_, ?_⟩
  · -- sentence
    intro spc text hspc
    unfold sentenceChunk catContents
    simp only [mkChunks, mkChunksFrom_contents]
    rw [nw_flatten, flatten_map_nw_joined " ".data hws1,
      groupsOf_flatten spc hspc, nw_sentencesOf]
  · -- paragraph
    intro minLen text
    unfold paragraphChunk catContents
    simp only [mkChunks, mkChunksFrom_contents]
    rw [nw_flatten, flatten_map_nw_joined "\n\n".data hws2, paraGroups_flatten]
    simp only [List.nil_append]
    rw [flatten_map_nw_filter _ (by intro x hx; simp at hx; simp [hx, nw])]
    rw [flatten_map_nw_stripWs]
    exact splitOnSep_nw "\n\n".data (by decide) hws2 text.length text (le_refl _)
  · -- semantic, at most one sentence
    intro o thr text hlen
    have hrew := nw_sentencesOf text
    unfold semanticChunk catContents
    cases hs : sentencesOf text with
    | nil =>
      rw [hs] at hrew
      simp only [List.map_nil, List.flatten_nil] at hrew
      simp only [semanticCore, List.map_nil, List.flatten_nil]
      exact hrew
    | cons s rest =>
      cases rest with
      | nil =>
        rw [hs] at hrew
        simp only [List.map_cons, List.map_nil, List.flatten_cons,
          List.flatten_nil, List.append_nil] at hrew
        simp only [semanticCore, List.map_cons, List.map_nil, List.flatten_cons,
          List.flatten_nil, List.append_nil]
        exact hrew
      | cons s1 rest' => rw [hs] at hlen; simp at hlen
  · -- semantic, successful embedding of every sentence
    intro o thr text embs hok hlen
    have hrew := nw_sentencesOf text
    unfold semanticChunk catContents
    cases hs : sentencesOf text with
    | nil =>
      rw [hs] at hrew
      simp only [List.map_nil, List.flatten_nil] at hrew
      simp only [semanticCore, List.map_nil, List.flatten_nil]
      exact hrew
    | cons s0 rest =>
      cases rest with
      | nil =>
        rw [hs] at hrew
        simp only [List.map_cons, List.map_nil, List.flatten_cons,
          List.flatten_nil, List.append_nil] at hrew
        simp only [semanticCore, List.map_cons, List.map_nil, List.flatten_cons,
          List.flatten_nil, List.append_nil]
        exact hrew
      | cons s1 srest =>
        rw [hs] at hok hlen hrew
        simp only [semanticCore, hok]
        simp only [mkChunks, mkChunksFrom_contents]
        rw [nw_flatten, flatten_map_nw_joined " ".data hws1, groupWalk_flatten]
        have hdl : (adjDists (embs.map l2normalize)).length = (s1 :: srest).length := by
          rw [adjDists_length, List.length_map, hlen]
          simp
        rw [List.map_snd_zip _ _ (le_of_eq hdl.symm)]
        simpa using hrew
  · -- recursive, zero overlap, default separators
    intro cs text
    unfold recursiveChunk catContents
    simp only [mkChunks, mkChunksFrom_contents]
    unfold mergeSplits
    rw [nw_flatten]
    have hflat := mergeGo_zero_flatten cs (splitTextRec cs defaultSeps text) [] 0 []
    simp only [List.flatten_nil, List.nil_append] at hflat
    rw [show ((mergeGo cs 0 [] (splitTextRec cs defaultSeps text) [] 0 []).map nw).flatten
        = nw (mergeGo cs 0 [] (splitTextRec cs defaultSeps text) [] 0 []).flatten
        from (nw_flatten _).symm]
    rw [hflat, nw_flatten]
    exact splitTextRec_nw cs defaultSeps.length defaultSeps text (le_refl _) (by decide)

/-- C5 counterexample: the hierarchy chunker drops heading lines, so even
after ignoring the injected `Context:` prefixes the source `"# A\ntext1"`
cannot be reconstructed; the recursive chunker with `chunk_size = 10`,
`chunk_overlap = 5` duplicates the overlap window on a 15-character
separator-free text; and the semantic chunker's embedding-failure path
replaces the text with a diagnostic message.  Each breaks reconstruction
modulo whitespace. -/
theorem c5_counterexample :
    nw (((hierarchyChunk 2000 true "# A\ntext1".data).chunks.map
        (fun c => dropCtx c.content)).flatten) ≠ nw "# A\ntext1".data ∧
    nw (catContents (recursiveChunk 10 5 defaultSeps (List.replicate 15 'a'))) ≠
      nw (List.replicate 15 'a') ∧
    nw (catContents (semanticChunk (failOracle "z".data) 0 "A. B.".data)) ≠
      nw "A. B.".data := by
  refine ⟨?_, ?_, ?_⟩
  · have h1 : (hierarchyChunk 2000 true "# A\ntext1".data).chunks.map Chunk.content =
        ["Context: A\n\ntext1".data] := by
      simp [hierarchyChunk, hierWalk, flushChunk, headerMatch, pathStr, withCtx,
        subSplitGo, splitOnSep, stripWs, joinSep, mkChunks, mkChunksFrom, isWs, headIsWs,
        List.isPrefixOf, List.dropWhile, List.takeWhile]
    rw [show (fun (c : Chunk) => dropCtx c.content) =
        (dropCtx ∘ Chunk.content) from rfl, ← List.map_map, h1]
    have h3 : dropCtx "Context: A\n\ntext1".data = "text1".data := by
      simp [dropCtx, splitOnSep, joinSep, List.isPrefixOf]
    simp only [List.map_cons, List.map_nil, h3]
    decide
  · have hsep : ∀ c ∈ List.replicate 15 'a', c ≠ '\n' ∧ c ≠ ' ' := by
      intro c hc
      rw [List.eq_of_mem_replicate hc]
      exact ⟨by decide, by decide⟩
    have hsplit := splitTextRec_sepFree 10 (by norm_num) _ hsep
    have hmerge : mergeSplits 10 5 [] (singles (List.replicate 15 'a')) =
        goChar 10 5 [] (List.replicate 15 'a') := by
      unfold mergeSplits
      have := mergeGo_singles 10 5 (List.replicate 15 'a') [] []
      simpa [singles] using this
    have hc : catContents (recursiveChunk 10 5 defaultSeps (List.replicate 15 'a')) =
        (goChar 10 5 [] (List.replicate 15 'a')).flatten := by
      unfold recursiveChunk catContents
      simp only [hsplit, hmerge, mkChunks, mkChunksFrom_contents]
    rw [hc]
    decide
  · have hs : sentencesOf "A. B.".data = ["A.".data, "B.".data] := by
      simp [sentencesOf, sentSplit, sentSplitAux, stripWs, isWs, isSentEnd, headIsWs]
    have h : semanticChunk (failOracle "z".data) 0 "A. B.".data =
        ⟨[⟨"error".data, 0, "Embedding Error: z".data⟩], 0⟩ := by
      simp [semanticChunk, semanticCore, hs, batchEmbed, groupsOf, failOracle, Except.map]
    rw [h]
    decide

/-- Witness for C5 amended: the sentence conjunct at group size 1, the
semantic single-sentence conjunct, and the semantic successful-embedding
conjunct with a unit-vector oracle. -/
theorem c5_witness :
    (1 ≤ 1) ∧
    nw (catContents (sentenceChunk 1 "A. B.".data)) = nw "A. B.".data ∧
    (sentencesOf "Hello.".data).length ≤ 1 ∧
    nw (catContents (semanticChunk (fun _ => Except.ok []) 0 "Hello.".data)) =
      nw "Hello.".data ∧
    batchEmbed (fun _ => Except.ok [[(1 : ℝ)], [(1 : ℝ)]])
      (sentencesOf "A. B.".data) = .ok [[(1 : ℝ)], [(1 : ℝ)]] ∧
    ([[(1 : ℝ)], [(1 : ℝ)]] : List (List ℝ)).length =
      (sentencesOf "A. B.".data).length ∧
    nw (catContents (semanticChunk (fun _ => Except.ok [[(1 : ℝ)], [(1 : ℝ)]])
      0 "A. B.".data)) = nw "A. B.".data := by
  have h1 : sentencesOf "Hello.".data = ["Hello.".data] := by
    simp [sentencesOf, sentSplit, sentSplitAux, stripWs, isWs, isSentEnd, headIsWs]
  have h2 : sentencesOf "A. B.".data = ["A.".data, "B.".data] := by
    simp [sentencesOf, sentSplit, sentSplitAux, stripWs, isWs, isSentEnd, headIsWs]
  have hok : batchEmbed (fun _ => Except.ok [[(1 : ℝ)], [(1 : ℝ)]])
      (sentencesOf "A. B.".data) = .ok [[(1 : ℝ)], [(1 : ℝ)]] := by
    rw [h2]
    simp [batchEmbed, groupsOf, Except.map]
  exact ⟨le_refl 1,
    c5_reconstruction_amended.1 1 "A. B.".data (le_refl 1),
    by rw [h1]; norm_num,
    c5_reconstruction_amended.2.2.1 _ 0 "Hello.".data (by rw [h1]; norm_num),
    hok,
    by rw [h2]; norm_num,
    c5_reconstruction_amended.2.2.2.1 _ 0 "A. B.".data [[(1 : ℝ)], [(1 : ℝ)]] hok
      (by rw [h2]; norm_num)⟩

end RagLib
